import Mathlib

/-!
Shallow embedding of the submissionUpdater repository's comparison and
extraction core:

* tools/compare_courses.js      — prerequisite-aware reconciliation
* tools/compare_courses_AI.js   — reconciliation without prerequisites
* src/scrape.js                 — row parser and table-extraction strategies

JavaScript strings are modelled as Lean String over their characters;
the string primitives used by the code (trim, toLowerCase, toUpperCase,
includes) are modelled character-wise, faithful for the ASCII inputs the
program manipulates.  Optional record fields are Option String, with the
JavaScript falsiness of both null/undefined and the empty string made
explicit at each use site, exactly as the source tests them.
-/

namespace SubUpd

/-- Character class of the JavaScript regex word class: [A-Za-z0-9_]. -/
def isWordChar (c : Char) : Bool :=
  c.isAlpha || c.isDigit || c == '_'

/-- Whitespace as matched by the JavaScript regex class \s (ASCII part). -/
def isWs (c : Char) : Bool :=
  c == ' ' || c == '\t' || c == '\n' || c == '\r'

/-- Model of String.prototype.trim: drop whitespace from both ends. -/
def jsTrim (s : String) : String :=
  ⟨(s.data.dropWhile isWs).reverse.dropWhile isWs |>.reverse⟩

/-- Model of String.prototype.toLowerCase (ASCII). -/
def jsLower (s : String) : String :=
  ⟨s.data.map Char.toLower⟩

/-- Model of String.prototype.toUpperCase (ASCII). -/
def jsUpper (s : String) : String :=
  ⟨s.data.map Char.toUpper⟩

/-- Does the needle occur at the head of the haystack? -/
def leadsWith : List Char → List Char → Bool
  | [], _ => true
  | _ :: _, [] => false
  | a :: as, b :: bs => a == b && leadsWith as bs

/-- Model of String.prototype.includes: contiguous substring test.
The empty needle is contained in every string, as in JavaScript. -/
def listIncludes (needle : List Char) : List Char → Bool
  | [] => needle.isEmpty
  | c :: cs => leadsWith needle (c :: cs) || listIncludes needle cs

/-- String form of listIncludes: jsIncludes hay needle models hay.includes(needle). -/
def jsIncludes (hay needle : String) : Bool :=
  listIncludes needle.data hay.data

/-- Truthiness of an optional JavaScript string: null/undefined and noise-free
empty string are falsy, everything else truthy. -/
def jsTruthy : Option String → Bool
  | none => false
  | some s => !(s == "")

/-- Course record of the data model (all fields optional strings, as in the
JSON the tools exchange). -/
structure Course where
  serial : Option String := none
  code : Option String := none
  title : Option String := none
  credits : Option String := none
  prerequisite : Option String := none
deriving Repr, DecidableEq

/-- A term (semester) record: name plus ordered course list. -/
structure Semester where
  name : String
  courses : List Course
deriving Repr, DecidableEq

/-- Embedding of normalizeCode from both comparison tools:
falsy input gives the empty string, otherwise trim and uppercase. -/
def normalizeCode (code : Option String) : String :=
  if jsTruthy code then jsUpper (jsTrim (code.getD "")) else ""

/-- Embedding of normalizeCredits: falsy input gives the empty string,
otherwise the trimmed string (credits stay an opaque token). -/
def normalizeCredits (c : Option String) : String :=
  if jsTruthy c then jsTrim (c.getD "") else ""

/-- Lowercased title as computed inside isTotalCourse:
String(c.title or the empty string).toLowerCase(). -/
def titleLowerOf (c : Course) : String :=
  jsLower (c.title.getD "")

/-- Embedding of isTotalCourse from both comparison tools: a course with
blank normalized code and blank title is not a total marker; otherwise
code TOTAL / GRAND TOTAL or a title containing the substring total is. -/
def isTotalCourse (c : Course) : Bool :=
  let code := normalizeCode c.code
  let title := titleLowerOf c
  if code == "" && title == "" then false
  else if code == "TOTAL" || code == "GRAND TOTAL" then true
  else jsIncludes title "total"

/-- Collapse every maximal whitespace run into the single character rep,
modelling String.prototype.replace with the regex of one-or-more
whitespace, globally.  The flag records whether the previous character
was part of a whitespace run already absorbed. -/
def collapseWsWith (rep : Char) : Bool → List Char → List Char
  | _, [] => []
  | prevWs, c :: cs =>
    if isWs c then
      (if prevWs then [] else [rep]) ++ collapseWsWith rep true cs
    else c :: collapseWsWith rep false cs

/-- Match of the course-code pattern of normalizePrereq, at the head of the
input: two-or-more uppercase letters, one optional hyphen-or-whitespace
separator, then two to four digits (greedy).  Returns the matched
characters and the remainder.  The JavaScript backtracking is
deterministic here: a shorter letter run or a dropped separator can never
rescue a failed digit match. -/
def matchCodeAt (cs : List Char) : Option (List Char × List Char) :=
  let ls := cs.takeWhile Char.isUpper
  if ls.length < 2 then none
  else
    match cs.drop ls.length with
    | [] => none
    | c :: rest2 =>
      if c == '-' || isWs c then
        let ds := (rest2.takeWhile Char.isDigit).take 4
        if ds.length ≥ 2 then some (ls ++ c :: ds, rest2.drop ds.length)
        else none
      else
        let ds := ((c :: rest2).takeWhile Char.isDigit).take 4
        if ds.length ≥ 2 then some (ls ++ ds, (c :: rest2).drop ds.length)
        else none

/-- Global scan for the course-code pattern (String.prototype.match with
the g flag): after a match continue at its end, after a failure advance
one character.  Fuel bounds the number of steps; every step consumes at
least one character, so fuel equal to the input length suffices. -/
def scanCodes : Nat → List Char → List (List Char)
  | 0, _ => []
  | _, [] => []
  | fuel + 1, c :: cs =>
    match matchCodeAt (c :: cs) with
    | some (m, rest) => m :: scanCodes fuel rest
    | none => scanCodes fuel cs

/-- All course-code matches of a string, in scan order. -/
def extractCodes (s : String) : List String :=
  (scanCodes s.data.length s.data).map (fun l => ⟨l⟩)

/-- Lexicographic at-most comparison of character lists by code point,
the order the default Array.prototype.sort comparator induces on the
code strings (which are ASCII). -/
def strLeChars : List Char → List Char → Bool
  | [], _ => true
  | _ :: _, [] => false
  | a :: as, b :: bs =>
    if a.toNat < b.toNat then true
    else if b.toNat < a.toNat then false
    else strLeChars as bs

/-- Lexicographic at-most comparison of strings by code point. -/
def strLe (a b : String) : Bool :=
  strLeChars a.data b.data

/-- Insertion of a string into a sorted list (ascending). -/
def insSorted (x : String) : List String → List String
  | [] => [x]
  | y :: ys => if strLe x y then x :: y :: ys else y :: insSorted x ys

/-- Model of Array.prototype.sort with the default comparator on the
extracted code strings: the unique ascending reordering (insertion sort). -/
def jsSortStrings (l : List String) : List String :=
  l.foldr insSorted []

/-- Model of Array.prototype.join with separator the pipe character. -/
def joinPipe : List String → String
  | [] => ""
  | x :: xs => xs.foldl (fun acc y => acc ++ "|" ++ y) x

/-- Embedding of normalizePrereq from tools/compare_courses.js: falsy input
gives the empty string; otherwise trim, uppercase, extract every
course-code match, turn each whitespace run inside a match into a hyphen,
sort, and join with pipes. -/
def normalizePrereq (p : Option String) : String :=
  if jsTruthy p then
    let s := jsUpper (jsTrim (p.getD ""))
    let codes := extractCodes s
    joinPipe (jsSortStrings (codes.map fun c => ⟨collapseWsWith '-' false c.data⟩))
  else ""

/-- Fingerprint of tools/compare_courses.js: code, credits and
prerequisite, normalized and pipe-separated. -/
def fingerprintP (c : Course) : String :=
  normalizeCode c.code ++ "|" ++ normalizeCredits c.credits ++ "|" ++
    normalizePrereq c.prerequisite

/-- Fingerprint of tools/compare_courses_AI.js: code and credits only. -/
def fingerprintAI (c : Course) : String :=
  normalizeCode c.code ++ "|" ++ normalizeCredits c.credits

/-- Fingerprint selected by the prerequisite-awareness flag that
distinguishes the two comparison tools. -/
def fingerprintOf (aware : Bool) : Course → String :=
  if aware then fingerprintP else fingerprintAI

/-- Alphanumeric character, i.e. a JavaScript word character other than
the underscore (the words helper spaces out both non-word characters and
underscores). -/
def isAlnum (c : Char) : Bool :=
  c.isAlpha || c.isDigit

/-- Maximal alphanumeric runs of a character list, left to right; the
accumulator holds the current run reversed. -/
def alnumRunsAux (acc : List Char) : List Char → List (List Char)
  | [] => if acc.isEmpty then [] else [acc.reverse]
  | c :: cs =>
    if isAlnum c then alnumRunsAux (c :: acc) cs
    else (if acc.isEmpty then [] else [acc.reverse]) ++ alnumRunsAux [] cs

/-- Strip one trailing letter s, modelling the replace of the regex
anchored s-at-end. -/
def dropTrailingS (w : List Char) : List Char :=
  if w.getLast? == some 's' then w.dropLast else w

/-- Embedding of the words helper of compareSemesters: lowercase, replace
runs of non-alphanumeric characters by spaces, split on whitespace, strip
one trailing s from each token, keep tokens longer than two characters. -/
def wordsOf (t : Option String) : List String :=
  let low := jsLower (t.getD "")
  (((alnumRunsAux [] low.data).map dropTrailingS).filter
      (fun w => w.length > 2)).map (fun l => ⟨l⟩)

/-- Deduplication keeping first occurrences, modelling construction of a
JavaScript Set from a list. -/
def dedupFirst : List String → List String
  | [] => []
  | x :: xs => x :: (dedupFirst xs).filter (fun y => !(y == x))

/-- Embedding of the Jaccard threshold test sim greater-or-equal 0.15 of
compareSemesters.  The double-precision comparison agrees with the exact
rational test 20 times intersection at least 3 times union for all set
sizes reachable from strings, because a quotient of small naturals is
more than a rounding error away from 0.15 unless it equals 3 over 20
exactly, and then both sides round to the same double. -/
def jaccardGE15 (a b : Option String) : Bool :=
  let ad := dedupFirst (wordsOf a)
  let bd := dedupFirst (wordsOf b)
  if ad.length == 0 || bd.length == 0 then false
  else
    let inter := (ad.filter (fun x => bd.contains x)).length
    let uni := (dedupFirst (ad ++ bd)).length
    20 * inter ≥ 3 * uni

/-- Embedding of the acronym helper: first letters of the word tokens,
joined and uppercased. -/
def acronymOf (t : Option String) : String :=
  jsUpper ⟨(wordsOf t).filterMap (fun w => w.data.head?)⟩

/-- Embedding of the subs test: one lowercased raw title is a substring
of the other.  A missing or empty title makes this trivially true,
because the empty string is a substring of every string. -/
def subsCheck (a b : Option String) : Bool :=
  jsIncludes (jsLower (a.getD "")) (jsLower (b.getD "")) ||
    jsIncludes (jsLower (b.getD "")) (jsLower (a.getD ""))

/-- Embedding of the tokenIntersection test: some word token of the first
title occurs among the second title's tokens. -/
def tokenIntersect (a b : Option String) : Bool :=
  (wordsOf a).any (fun t => (wordsOf b).contains t)

/-- Title similarity disjunction of compareSemesters, in source order:
Jaccard threshold, mutual acronym containment (both acronyms nonempty),
substring test, nonempty token intersection. -/
def titlesSimilar (mT eT : Option String) : Bool :=
  let acrM := acronymOf mT
  let acrE := acronymOf eT
  jaccardGE15 mT eT ||
    (!(acrM == "") && !(acrE == "") &&
      (jsIncludes acrM acrE || jsIncludes acrE acrM)) ||
    subsCheck mT eT || tokenIntersect mT eT

/-- Diff entries produced by compareSemesters, one constructor per type
tag the tools emit. -/
inductive Diff where
  | missingInFetched (count : Nat) (course : Course)
  | extraInFetched (count : Nat) (course : Course)
  | countMismatch (course : Course) (fetchedCount validCount : Nat)
  | codeMismatch (fetched valid : Course)
  | prereqMismatch (fetched valid : Course)
deriving Repr, DecidableEq

/-- The literal type string the tools store in each diff object. -/
def Diff.typeStr : Diff → String
  | .missingInFetched .. => "missing-in-fetched"
  | .extraInFetched .. => "extra-in-fetched"
  | .countMismatch .. => "count-mismatch"
  | .codeMismatch .. => "code-mismatch"
  | .prereqMismatch .. => "prerequisite-mismatch"

/-- Category rank in emission order: paired diffs, then missing, then
extra, then count mismatches. -/
def Diff.rank : Diff → Nat
  | .codeMismatch .. => 0
  | .prereqMismatch .. => 0
  | .missingInFetched .. => 1
  | .extraInFetched .. => 2
  | .countMismatch .. => 3

/-- Reference-side (valid) course of a paired diff, i.e. the missing
candidate the greedy pairing consumed; nothing for unpaired diff
kinds. -/
def pairedValid : Diff → Option Course
  | .codeMismatch _ v => some v
  | .prereqMismatch _ v => some v
  | _ => none

/-- Sample course carried by an unpaired diff (missing, extra or
count-mismatch); nothing for paired diff kinds. -/
def diffCourse : Diff → Option Course
  | .missingInFetched _ c => some c
  | .extraInFetched _ c => some c
  | .countMismatch c _ _ => some c
  | _ => none

/-- Fingerprint count map: insertion-ordered association list of key,
count and first sample course, modelling the JavaScript Map of
makeCountMap. -/
abbrev CMap := List (String × Nat × Course)

/-- Increment the count of a key in place, keeping the first sample and
the key's position; a new key is appended at the end, as Map.set does. -/
def bumpKey (k : String) (c : Course) : CMap → CMap
  | [] => [(k, 1, c)]
  | (k1, n, s) :: rest =>
    if k1 == k then (k1, n + 1, s) :: rest
    else (k1, n, s) :: bumpKey k c rest

/-- Embedding of makeCountMap: fold the course list, skipping total
markers, bumping each course's fingerprint key. -/
def makeCountMap (fp : Course → String) (arr : List Course) : CMap :=
  arr.foldl (fun m c => if isTotalCourse c then m else bumpKey (fp c) c m) []

/-- Lookup of a key in the count map (Map.get). -/
def lookupC : CMap → String → Option (Nat × Course)
  | [], _ => none
  | (k1, n, s) :: rest, k => if k1 == k then some (n, s) else lookupC rest k

/-- Keys of the reference map absent from the live map, in reference-map
order: the missing candidates of compareSemesters. -/
def collectMissing (fMap : CMap) : CMap → List (String × Nat × Course)
  | [] => []
  | (k, n, c) :: rest =>
    match lookupC fMap k with
    | none => (k, n, c) :: collectMissing fMap rest
    | some _ => collectMissing fMap rest

/-- Keys present in both maps with different counts, in reference-map
order, carrying the reference sample and both counts: the count-mismatch
records of compareSemesters. -/
def collectCountMis (fMap : CMap) : CMap → List (Course × Nat × Nat)
  | [] => []
  | (k, n, c) :: rest =>
    match lookupC fMap k with
    | none => collectCountMis fMap rest
    | some (fn, _) =>
      if fn ≠ n then (c, fn, n) :: collectCountMis fMap rest
      else collectCountMis fMap rest

/-- Keys of the live map absent from the reference map, in live-map
order: the extra candidates of compareSemesters. -/
def collectExtra (vMap : CMap) : CMap → List (String × Nat × Course)
  | [] => []
  | (k, n, c) :: rest =>
    if (lookupC vMap k).isNone then (k, n, c) :: collectExtra vMap rest
    else collectExtra vMap rest

/-- One inner-loop body of the greedy pairing of compareSemesters, for a
missing sample against an extra sample: skip when credits differ; in the
prerequisite-aware tool, equal codes with different prerequisites give a
prerequisite mismatch; otherwise similar titles give a code mismatch. -/
def pairStep (aware : Bool) (mC eC : Course) : Option Diff :=
  if !(normalizeCredits mC.credits == normalizeCredits eC.credits) then none
  else if aware && normalizeCode mC.code == normalizeCode eC.code &&
      !(normalizePrereq mC.prerequisite == normalizePrereq eC.prerequisite) then
    some (.prereqMismatch eC mC)
  else if titlesSimilar mC.title eC.title then
    some (.codeMismatch eC mC)
  else none

/-- Inner loop of the greedy pairing: first unused extra candidate, in
live order, for which pairStep succeeds; returns its index and the diff. -/
def findPair (aware : Bool) (mC : Course) :
    List ((String × Nat × Course) × Bool) → Option (Nat × Diff)
  | [] => none
  | (e, used) :: rest =>
    if used then (findPair aware mC rest).map (fun p => (p.1 + 1, p.2))
    else
      match pairStep aware mC e.2.2 with
      | some d => some (0, d)
      | none => (findPair aware mC rest).map (fun p => (p.1 + 1, p.2))

/-- Mark the extra candidate at an index as paired. -/
def markUsed : List ((String × Nat × Course) × Bool) → Nat →
    List ((String × Nat × Course) × Bool)
  | [], _ => []
  | (e, _) :: rest, 0 => (e, true) :: rest
  | eb :: rest, j + 1 => eb :: markUsed rest j

/-- Outer loop of the greedy pairing over the missing candidates, in
reference order: produces the paired diffs in pairing order, one
paired-or-not flag per missing candidate, and the extra candidates with
their final used flags. -/
def pairLoop (aware : Bool) :
    List (String × Nat × Course) → List ((String × Nat × Course) × Bool) →
    List Diff × List Bool × List ((String × Nat × Course) × Bool)
  | [], es => ([], [], es)
  | m :: ms, es =>
    match findPair aware m.2.2 es with
    | some (j, d) =>
      let res := pairLoop aware ms (markUsed es j)
      (d :: res.1, true :: res.2.1, res.2.2)
    | none =>
      let res := pairLoop aware ms es
      (res.1, false :: res.2.1, res.2.2)

/-- Embedding of compareSemesters, parameterized by the
prerequisite-awareness flag that is the only difference between
tools/compare_courses.js (true) and tools/compare_courses_AI.js (false):
build both fingerprint count maps, collect missing, count-mismatch and
extra candidates, run the greedy pairing, then emit paired diffs,
unpaired missing, unpaired extra, and count mismatches, in that order. -/
def compareSemestersCore (aware : Bool) (fetchedSem validSem : Semester) :
    List Diff :=
  let fp := fingerprintOf aware
  let fMap := makeCountMap fp fetchedSem.courses
  let vMap := makeCountMap fp validSem.courses
  let missingList := collectMissing fMap vMap
  let countMis := collectCountMis fMap vMap
  let extraList := collectExtra vMap fMap
  let pr := pairLoop aware missingList (extraList.map (fun e => (e, false)))
  pr.1 ++
    ((missingList.zip pr.2.1).filterMap fun me =>
      if me.2 then none else some (Diff.missingInFetched me.1.2.1 me.1.2.2)) ++
    (pr.2.2.filterMap fun eb =>
      if eb.2 then none else some (Diff.extraInFetched eb.1.2.1 eb.1.2.2)) ++
    (countMis.map fun cm => Diff.countMismatch cm.1 cm.2.1 cm.2.2)

/-- compareSemesters of tools/compare_courses.js. -/
def compareSemesters : Semester → Semester → List Diff :=
  compareSemestersCore true

/-- compareSemesters of tools/compare_courses_AI.js. -/
def compareSemestersAI : Semester → Semester → List Diff :=
  compareSemestersCore false

/-- Case-insensitive literal match at the head of the input; the pattern
is given lowercased. -/
def ciLeads : List Char → List Char → Bool
  | [], _ => true
  | _ :: _, [] => false
  | p :: ps, c :: cs => p == c.toLower && ciLeads ps cs

/-- Embedding of romanToInt from the comparison tools. -/
def romanToInt (r : String) : String :=
  let m := jsUpper r
  if m == "I" then "1"
  else if m == "II" then "2"
  else if m == "III" then "3"
  else if m == "IV" then "4"
  else if m == "V" then "5"
  else m

/-- Word-boundary test after a roman-numeral group: the group's last
character is a word character, so the boundary holds exactly when the
remainder starts with a non-word character or is empty. -/
def romanBnd : List Char → Bool
  | [] => true
  | c :: _ => !isWordChar c

/-- Match of the roman-numeral group of normalizeSemKey at the head of a
lowercase input, with its trailing word boundary, in the JavaScript
alternation-and-backtracking order: one-to-three letters i (greedy),
then iv, then v.  Returns the matched characters and the remainder.
The inputs reaching this scanner inside normalizeSemKey are already
lowercased, making the literal lowercase patterns faithful to the
case-insensitive regex. -/
def tryRomanCore : List Char → Option (List Char × List Char)
  | 'i' :: 'i' :: 'i' :: rest =>
    if romanBnd rest then some (['i', 'i', 'i'], rest) else none
  | 'i' :: 'i' :: rest =>
    if romanBnd rest then some (['i', 'i'], rest) else none
  | 'i' :: 'v' :: rest =>
    if romanBnd rest then some (['i', 'v'], rest) else none
  | 'i' :: rest =>
    if romanBnd rest then some (['i'], rest) else none
  | 'v' :: rest =>
    if romanBnd rest then some (['v'], rest) else none
  | _ => none

/-- First replacement pass of normalizeSemKey: the word semester preceded
by a word boundary, one-or-more whitespace, then a roman-numeral group
with a trailing boundary, rewritten to semester-space-digit.  Scanning
resumes after each match; a failed position advances one character.  The
flag tracks whether the previous input character is a word character. -/
def passA : Nat → Bool → List Char → List Char
  | 0, _, cs => cs
  | _, _, [] => []
  | fuel + 1, prevWord, c :: cs1 =>
    let here := c :: cs1
    let fail := c :: passA fuel (isWordChar c) cs1
    if !prevWord && leadsWith "semester".data here then
      let after := here.drop 8
      let ws := after.takeWhile isWs
      if ws.length ≥ 1 then
        match tryRomanCore (after.drop ws.length) with
        | some (m, rest) =>
          ("semester ".data ++ (romanToInt ⟨m⟩).data) ++ passA fuel true rest
        | none => fail
      else fail
    else fail

/-- Second replacement pass of normalizeSemKey: a standalone
roman-numeral group between word boundaries becomes a digit. -/
def passB : Nat → Bool → List Char → List Char
  | 0, _, cs => cs
  | _, _, [] => []
  | fuel + 1, prevWord, c :: cs1 =>
    let fail := c :: passB fuel (isWordChar c) cs1
    if !prevWord then
      match tryRomanCore (c :: cs1) with
      | some (m, rest) => (romanToInt ⟨m⟩).data ++ passB fuel true rest
      | none => fail
    else fail

/-- Match of the pre-medical variant pattern at the head of the input:
pre, optional whitespace, optional hyphen, optional whitespace, medical.
Returns the remainder after the match. -/
def tryPreMed (cs : List Char) : Option (List Char) :=
  if leadsWith "pre".data cs then
    let r1 := cs.drop 3
    let r2 := r1.drop (r1.takeWhile isWs).length
    let r3 := match r2 with
      | '-' :: t => t
      | _ => r2
    let r4 := r3.drop (r3.takeWhile isWs).length
    if leadsWith "medical".data r4 then some (r4.drop 7) else none
  else none

/-- Third replacement pass of normalizeSemKey: unify pre-medical spelling
variants to pre-space-medical. -/
def preMedPass : Nat → List Char → List Char
  | 0, cs => cs
  | _, [] => []
  | fuel + 1, c :: cs1 =>
    match tryPreMed (c :: cs1) with
    | some rest => "pre medical".data ++ preMedPass fuel rest
    | none => c :: preMedPass fuel cs1

/-- Embedding of normalizeSemKey from the comparison tools: lowercase,
turn the three dash characters and then parentheses, comma, period and
colon into spaces, collapse whitespace and trim, rewrite roman numerals
after the word semester, rewrite standalone roman numerals, and unify
pre-medical spellings. -/
def normalizeSemKey (name : String) : String :=
  if name == "" then ""
  else
    let s1 := (jsLower name).data
    let s2 := s1.map fun c =>
      if c == '-' || c == '–' || c == '—' then ' ' else c
    let s3 := s2.map fun c =>
      if c == '(' || c == ')' || c == ',' || c == '.' || c == ':' then ' '
      else c
    let s4 := (jsTrim ⟨collapseWsWith ' ' false s3⟩).data
    let s5 := passA s4.length false s4
    let s6 := passB s5.length false s5
    ⟨preMedPass s6.length s6⟩

/-- Decimal digit run to a number, modelling the Number coercion of a
captured digit group. -/
def digitsToNat (ds : List Char) : Nat :=
  ds.foldl (fun n c => n * 10 + (c.toNat - 48)) 0

/-- Match of the first semesterNumber regex at the head of the input:
the word semester (case-insensitive), optional whitespace, an optional
hyphen or colon, optional whitespace, then one-or-more digits (the
capture). -/
def trySemNum1 (cs : List Char) : Option (List Char) :=
  if ciLeads "semester".data cs then
    let r1 := cs.drop 8
    let r2 := r1.drop (r1.takeWhile isWs).length
    let r3 := match r2 with
      | '-' :: t => t
      | ':' :: t => t
      | _ => r2
    let r4 := r3.drop (r3.takeWhile isWs).length
    let ds := r4.takeWhile Char.isDigit
    if ds.length ≥ 1 then some ds else none
  else none

/-- Match of the fallback semesterNumber regex at the head of the input:
semester, one optional hyphen or space, then digits. -/
def trySemNum2 (cs : List Char) : Option (List Char) :=
  if ciLeads "semester".data cs then
    let r1 := cs.drop 8
    let r2 := match r1 with
      | '-' :: t => t
      | ' ' :: t => t
      | _ => r1
    let ds := r2.takeWhile Char.isDigit
    if ds.length ≥ 1 then some ds else none
  else none

/-- First match of a head matcher anywhere in the input, scanning left to
right. -/
def scanFirst (matcher : List Char → Option (List Char)) :
    Nat → List Char → Option (List Char)
  | 0, _ => none
  | _, [] => none
  | fuel + 1, c :: cs =>
    match matcher (c :: cs) with
    | some m => some m
    | none => scanFirst matcher fuel cs

/-- Embedding of semesterNumber from the comparison tools: the first
integer of the primary pattern, else of the fallback pattern, else
nothing. -/
def semesterNumber (name : String) : Option Nat :=
  if name == "" then none
  else
    match scanFirst trySemNum1 name.data.length name.data with
    | some ds => some (digitsToNat ds)
    | none =>
      match scanFirst trySemNum2 name.data.length name.data with
      | some ds => some (digitsToNat ds)
      | none => none

/-- One step of buildSheetSemesterMap: append the group's courses to an
existing key in place, or append a new key at the end. -/
def addSheetSem (m : List (String × List Course)) (key : String)
    (cs : List Course) : List (String × List Course) :=
  if m.any (fun e => e.1 == key) then
    m.map fun e => if e.1 == key then (e.1, e.2 ++ cs) else e
  else m ++ [(key, cs)]

/-- Embedding of buildSheetSemesterMap: group the sheet's semesters by
their original name (unknown for a blank name), concatenating course
lists, in first-occurrence order. -/
def buildSheetSemesterMap (sheet : List Semester) :
    List (String × List Course) :=
  sheet.foldl
    (fun m sem =>
      addSheetSem m (if sem.name == "" then "(unknown)" else sem.name)
        sem.courses)
    []

/-- First key of the sheet map satisfying a predicate, in map order. -/
def firstKeyWith (p : String → Bool) :
    List (String × List Course) → Option String
  | [] => none
  | (k, _) :: rest => if p k then some k else firstKeyWith p rest

/-- Association lookup in the sheet map. -/
def lookupSheet : List (String × List Course) → String → Option (List Course)
  | [], _ => none
  | (k, cs) :: rest, key => if k == key then some cs else lookupSheet rest key

/-- Embedding of the matching cascade of main in the comparison tools:
exact name, then normalized-name equality, then equal extracted semester
number. -/
def findMatchedKey (name : String) (sheetMap : List (String × List Course)) :
    Option String :=
  if sheetMap.any (fun e => e.1 == name) then some name
  else
    match firstKeyWith (fun k => normalizeSemKey k == normalizeSemKey name)
        sheetMap with
    | some k => some k
    | none =>
      match semesterNumber name with
      | none => none
      | some n =>
        firstKeyWith (fun k => semesterNumber k == some n) sheetMap

/-- One term entry of the report JSON produced by main. -/
structure ReportEntry where
  name : String
  validKey : String
  diffCount : Nat
  diffs : List Diff
deriving Repr, DecidableEq

/-- Loop of main over the scraped semesters: each produces a report entry
against its matched sheet group (or an empty term), and matched sheet
keys are collected. -/
def buildReportLoop (sheetMap : List (String × List Course)) :
    List Semester → List ReportEntry × List String
  | [] => ([], [])
  | sem :: rest =>
    let matchedKey := findMatchedKey sem.name sheetMap
    let validSem : Semester :=
      match matchedKey with
      | some k => ⟨k, (lookupSheet sheetMap k).getD []⟩
      | none => ⟨sem.name, []⟩
    let diffs := compareSemesters sem validSem
    let res := buildReportLoop sheetMap rest
    (⟨sem.name, validSem.name, diffs.length, diffs⟩ :: res.1,
      match matchedKey with
      | some k => k :: res.2
      | none => res.2)

/-- Trailing loop of main: sheet groups matched by no scraped semester are
self-compared against an empty term and reported only when that yields
differences. -/
def unmatchedEntries (matched : List String) :
    List (String × List Course) → List ReportEntry
  | [] => []
  | (key, cs) :: rest =>
    if matched.contains key then unmatchedEntries matched rest
    else
      let diffs := compareSemesters ⟨key, []⟩ ⟨key, cs⟩
      if diffs.length > 0 then
        ⟨"(extra in valid) " ++ key, key, diffs.length, diffs⟩ ::
          unmatchedEntries matched rest
      else unmatchedEntries matched rest

/-- Report term list produced by main of tools/compare_courses.js from a
scraped catalog and a sheet catalog. -/
def buildReport (scraped sheet : List Semester) : List ReportEntry :=
  let sheetMap := buildSheetSemesterMap sheet
  let res := buildReportLoop sheetMap scraped
  res.1 ++ unmatchedEntries res.2 sheetMap

/-- All-digits test of the serial regex: nonempty and every character a
decimal digit. -/
def isAllDigits (s : String) : Bool :=
  !(s == "") && s.data.all Char.isDigit

/-- Empty string to null, modelling the or-null idiom on a trimmed cell. -/
def toNullable (s : String) : Option String :=
  if s == "" then none else some s

/-- Indexing a cell list, with undefined and missing cells read as the
empty string (the or-empty-string idiom). -/
def jsGetCell (cells : List String) (i : Nat) : String :=
  (cells.get? i).getD ""

/-- Match of the loose course-code regex of src/scrape.js at the head of
the input: two-or-more uppercase letters, optional whitespace, an
optional hyphen, optional whitespace, then two-to-four digits; the
returned characters are the raw match including the separators. -/
def matchCodeLooseAt (cs : List Char) : Option (List Char × List Char) :=
  let ls := cs.takeWhile Char.isUpper
  if ls.length < 2 then none
  else
    let r1 := cs.drop ls.length
    let ws1 := r1.takeWhile isWs
    let r2 := r1.drop ws1.length
    let dash : List Char := match r2 with
      | '-' :: _ => ['-']
      | _ => []
    let r3 := r2.drop dash.length
    let ws2 := r3.takeWhile isWs
    let r4 := r3.drop ws2.length
    let ds := (r4.takeWhile Char.isDigit).take 4
    if ds.length ≥ 2 then
      some (ls ++ ws1 ++ dash ++ ws2 ++ ds, r4.drop ds.length)
    else none

/-- First whole match of the loose course-code regex anywhere in a
string. -/
def firstCodeLoose (s : String) : Option String :=
  (scanFirst (fun cs => (matchCodeLooseAt cs).map (fun p => p.1))
      s.data.length s.data).map (fun l => ⟨l⟩)

/-- Match of the credits regex of src/scrape.js at one position: a word
boundary (previous character not a word character) or an opening
parenthesis, then digits with an optional decimal fraction (the
capture), then whitespace-and-cr (case-insensitive), a closing
parenthesis, or the end of the string.  Backtracking cannot rescue a
failed suffix, because every shorter number split leaves a digit or the
period at the suffix position. -/
def matchCreditsBody (l : List Char) : Option (List Char) :=
  let ds := l.takeWhile Char.isDigit
  if ds.length ≥ 1 then
    let r1 := l.drop ds.length
    let frac : List Char := match r1 with
      | '.' :: t =>
        let fd := t.takeWhile Char.isDigit
        if fd.length ≥ 1 then '.' :: fd else []
      | _ => []
    let r2 := r1.drop frac.length
    let sufOk :=
      r2.isEmpty ||
      (match r2 with
        | ')' :: _ => true
        | _ => false) ||
      ciLeads "cr".data (r2.drop (r2.takeWhile isWs).length)
    if sufOk then some (ds ++ frac) else none
  else none

/-- Credits-regex match attempt at the current position, given whether
the previous character is a word character. -/
def matchCreditsAt (prevWord : Bool) (cs : List Char) : Option (List Char) :=
  match cs with
  | [] => none
  | c :: rest =>
    if c.isDigit && !prevWord then matchCreditsBody cs
    else if c == '(' then matchCreditsBody rest
    else none

/-- First capture of the credits regex anywhere in a string, scanning
with word-boundary context. -/
def firstCreditsCapture : Nat → Bool → List Char → Option (List Char)
  | 0, _, _ => none
  | _, _, [] => none
  | fuel + 1, prevWord, c :: cs =>
    match matchCreditsAt prevWord (c :: cs) with
    | some cap => some cap
    | none => firstCreditsCapture fuel (isWordChar c) cs

/-- First capture of the credits regex of src/scrape.js in a string. -/
def firstCredits (s : String) : Option String :=
  (firstCreditsCapture s.data.length false s.data).map (fun l => ⟨l⟩)

/-- Canonical decimal form of a captured credits number, modelling the
string form of the Number coercion the fallback applies: leading zeros
of the integer part and trailing zeros of the fraction disappear, and an
empty fraction drops its period.  Exact for the decimal captures the
credits pattern produces at realistic magnitudes. -/
def canonDecimal (s : String) : String :=
  let int := s.data.takeWhile Char.isDigit
  let frac := match s.data.drop int.length with
    | '.' :: t => t
    | _ => []
  let int1 := match int.dropWhile (fun c => c == '0') with
    | [] => ['0']
    | r => r
  let frac1 := (frac.reverse.dropWhile (fun c => c == '0')).reverse
  if frac1.isEmpty then ⟨int1⟩ else ⟨int1 ++ '.' :: frac1⟩

/-- State of the token-scan fallback of parseCourseFromCells: serial,
code and credits found so far, and the unclassified tokens. -/
def fallbackLoop :
    Option String × Option String × Option String × List String →
    List String →
    Option String × Option String × Option String × List String
  | st, [] => st
  | (serial, code, credits, remaining), cell :: rest =>
    let t := jsTrim cell
    if t == "" then fallbackLoop (serial, code, credits, remaining) rest
    else if serial.isNone && isAllDigits t then
      fallbackLoop (some t, code, credits, remaining) rest
    else if code.isNone && (firstCodeLoose t).isSome then
      fallbackLoop
        (serial,
          some (jsTrim
            ⟨collapseWsWith ' ' false ((firstCodeLoose t).getD "").data⟩),
          credits, remaining) rest
    else if credits.isNone && (firstCredits t).isSome then
      fallbackLoop (serial, code, firstCredits t, remaining) rest
    else fallbackLoop (serial, code, credits, remaining ++ [t]) rest

/-- Join of the unclassified tokens with the space-dash-space separator. -/
def joinSepDash : List String → String
  | [] => ""
  | x :: xs => xs.foldl (fun acc y => acc ++ " - " ++ y) x

/-- Embedding of parseCourseFromCells from src/scrape.js: an all-digit
first cell is the serial and shifts the offset; with at least three
cells after the offset the mapping is positional (each cell trimmed,
empty becoming null, the prerequisite taken from the cell at offset plus
four when present); otherwise the token-scan fallback classifies each
nonempty trimmed cell in order. -/
def parseCourseFromCells (cells : List String) : Course :=
  let first := jsGetCell cells 0
  let hasSerial := isAllDigits first
  let offset := if hasSerial then 1 else 0
  if cells.length ≥ offset + 3 then
    { serial := if hasSerial then some (jsTrim first) else none
      code := toNullable (jsTrim (jsGetCell cells offset))
      title := toNullable (jsTrim (jsGetCell cells (offset + 1)))
      credits := toNullable (jsTrim (jsGetCell cells (offset + 2)))
      prerequisite :=
        if cells.length ≥ offset + 5 then
          toNullable (jsTrim (jsGetCell cells (offset + 4)))
        else none }
  else
    let st := fallbackLoop (none, none, none, []) cells
    { serial := st.1
      code := st.2.1
      title := toNullable (jsTrim (joinSepDash st.2.2.2))
      credits := (st.2.2.1).map canonDecimal
      prerequisite := none }

/-- A body row of a Strategy B table: the trimmed text of the row-scoped
header cell and the trimmed texts of the data cells. -/
structure BRow where
  serialTh : String
  tds : List String
deriving Repr, DecidableEq

/-- A table as Strategy B sees it: the trimmed text of the first header
cell and the body rows. -/
structure BTable where
  headText : String
  rows : List BRow
deriving Repr, DecidableEq

/-- The semester test regex of the extractor: the text contains the word
semester, case-insensitively. -/
def containsSemesterCI (s : String) : Bool :=
  jsIncludes (jsLower s) "semester"

/-- Row handling of Strategy B: prepend a nonempty row header as the
serial cell, parse when any cell exists, and keep the course only when
its code or title is truthy. -/
def parseBRow (r : BRow) : Option Course :=
  let cells := (if !(r.serialTh == "") then [r.serialTh] else []) ++ r.tds
  if cells.isEmpty then none
  else
    let parsed := parseCourseFromCells cells
    if jsTruthy parsed.code || jsTruthy parsed.title then some parsed
    else none

/-- Deduplication key of the extractor: code and title joined by a double
pipe, absent fields as empty strings. -/
def dedupKey (c : Course) : String :=
  c.code.getD "" ++ "||" ++ c.title.getD ""

/-- First-occurrence deduplication by the code-and-title key. -/
def dedupByKeyAux (seen : List String) : List Course → List Course
  | [] => []
  | c :: rest =>
    if seen.contains (dedupKey c) then dedupByKeyAux seen rest
    else c :: dedupByKeyAux (dedupKey c :: seen) rest

/-- Term produced from one Strategy B table: header text as the name,
parsed and deduplicated body rows as the courses. -/
def parseBTable (t : BTable) : Semester :=
  ⟨t.headText, dedupByKeyAux [] (t.rows.filterMap parseBRow)⟩

/-- Embedding of Strategy B of extractSemesters (src/scrape.js lines 122
to 146), given the semester list the earlier strategy already produced:
every table is visited in document order; a table is parsed and its term
pushed exactly when its first header cell's text matches the semester
pattern and no semester of the same name is in the accumulated list,
which includes terms pushed by earlier Strategy B tables. -/
def strategyB (sems : List Semester) (tables : List BTable) : List Semester :=
  tables.foldl
    (fun acc t =>
      if !containsSemesterCI t.headText then acc
      else if acc.any (fun s => s.name == t.headText) then acc
      else acc ++ [parseBTable t])
    sems

/-- Specification-shaped rewrite of Strategy B for the amended claim: the
Strategy A results are kept, and a table is parsed exactly when its
header matches the semester pattern and its name has not already been
produced, by Strategy A or by an earlier Strategy B table; the seen-name
set threads through the recursion. -/
def strategyBGo (seen : List String) : List BTable → List Semester
  | [] => []
  | t :: ts =>
    if containsSemesterCI t.headText &&
        !(seen.any (fun n => n == t.headText)) then
      parseBTable t :: strategyBGo (seen ++ [t.headText]) ts
    else strategyBGo seen ts

/-! Lemmas about the fingerprint count maps. -/

/-- Fingerprints of the non-total courses of a list, in order: the
multiset underlying a term's count map. -/
def nonTotalFps (fp : Course → String) (l : List Course) : List String :=
  (l.filter (fun c => !isTotalCourse c)).map fp

/-- Count stored for a key, zero when absent. -/
def entryCount (m : CMap) (k : String) : Nat :=
  match lookupC m k with
  | some p => p.1
  | none => 0

/-- Split of a character list at pipe characters; the empty input yields
one empty component, as String.prototype.split does. -/
def pipeSplit : List Char → List (List Char)
  | [] => [[]]
  | c :: cs =>
    if c == '|' then [] :: pipeSplit cs
    else
      match pipeSplit cs with
      | [] => [[c]]
      | p :: ps => (c :: p) :: ps

/-- Pipe-separated components of a string. -/
def pipeParts (s : String) : List String :=
  (pipeSplit s.data).map (fun l => ⟨l⟩)

/-- Character-level tail of a pipe join: each further component prefixed
by a pipe. -/
def pipeTail : List (List Char) → List Char
  | [] => []
  | y :: ys => ('|' :: y) ++ pipeTail ys

theorem lookupC_bumpKey (k : String) (c : Course) (m : CMap) (k1 : String) :
    lookupC (bumpKey k c m) k1 =
      if k1 = k then
        match lookupC m k with
        | some p => some (p.1 + 1, p.2)
        | none => some (1, c)
      else lookupC m k1 := by
  induction m with
  | nil =>
    by_cases h : k1 = k
    · subst h; simp [bumpKey, lookupC]
    · simp [bumpKey, lookupC, h, Ne.symm h]
  | cons e rest ih =>
    obtain ⟨k2, n, s⟩ := e
    by_cases h2 : k2 = k
    · subst h2
      by_cases h1 : k1 = k2
      · subst h1; simp [bumpKey, lookupC]
      · simp [bumpKey, lookupC, h1, Ne.symm h1]
    · by_cases h1 : k1 = k2
      · subst h1
        have hk : ¬k1 = k := h2
        simp [bumpKey, lookupC, h2, hk]
      · simp [bumpKey, lookupC, h2, Ne.symm h1, ih]

theorem entryCount_bumpKey (k : String) (c : Course) (m : CMap) (k1 : String) :
    entryCount (bumpKey k c m) k1 =
      entryCount m k1 + (if k1 = k then 1 else 0) := by
  by_cases h : k1 = k
  · subst h
    simp only [entryCount, lookupC_bumpKey, if_pos rfl]
    cases lookupC m k1 <;> simp
  · simp [entryCount, lookupC_bumpKey, h]

theorem entryCount_foldl (fp : Course → String) (l : List Course) :
    ∀ m k,
      entryCount
        (l.foldl
          (fun m c => if isTotalCourse c then m else bumpKey (fp c) c m) m) k =
        entryCount m k + (nonTotalFps fp l).count k := by
  induction l with
  | nil => intro m k; simp [nonTotalFps]
  | cons c rest ih =>
    intro m k
    by_cases hc : isTotalCourse c
    · have h1 : nonTotalFps fp (c :: rest) = nonTotalFps fp rest := by
        simp [nonTotalFps, List.filter_cons, hc]
      simp [List.foldl_cons, hc, ih, h1]
    · have h1 : nonTotalFps fp (c :: rest) = fp c :: nonTotalFps fp rest := by
        simp [nonTotalFps, List.filter_cons, hc]
      have hc2 : isTotalCourse c = false := by simpa using hc
      by_cases hk : k = fp c
      · simp [List.foldl_cons, hc2, ih, entryCount_bumpKey, h1,
          List.count_cons, hk]
        omega
      · have hk2 : (fp c == k) = false := by
          simp [beq_eq_false_iff_ne]
          exact Ne.symm hk
        simp [List.foldl_cons, hc2, ih, entryCount_bumpKey, h1,
          List.count_cons, hk, hk2]

theorem entryCount_makeCountMap (fp : Course → String) (l : List Course)
    (k : String) :
    entryCount (makeCountMap fp l) k = (nonTotalFps fp l).count k := by
  have h := entryCount_foldl fp l [] k
  simpa [makeCountMap, entryCount, lookupC] using h

theorem lookupC_mem (m : CMap) (k : String) (p : Nat × Course)
    (h : lookupC m k = some p) : (k, p) ∈ m := by
  induction m with
  | nil => simp [lookupC] at h
  | cons e rest ih =>
    obtain ⟨k1, q⟩ := e
    by_cases h1 : k1 = k
    · subst h1
      simp [lookupC] at h
      simp [h]
    · simp [lookupC, h1] at h
      exact List.mem_cons_of_mem _ (ih h)

theorem pos_of_mem_bumpKey (k : String) (c : Course) (m : CMap)
    (hm : ∀ e ∈ m, 0 < e.2.1) :
    ∀ e ∈ bumpKey k c m, 0 < e.2.1 := by
  induction m with
  | nil =>
    intro e he
    simp [bumpKey] at he
    simp [he]
  | cons e0 rest ih =>
    obtain ⟨k1, n, s⟩ := e0
    intro e he
    by_cases h1 : k1 = k
    · simp [bumpKey, h1] at he
      rcases he with he | he
      · simp [he]
      · exact hm _ (List.mem_cons_of_mem _ he)
    · simp only [bumpKey, beq_iff_eq, h1, if_false, ite_false,
        List.mem_cons] at he
      rcases he with he | he
      · exact he ▸ hm _ (List.mem_cons_self _ _)
      · exact ih (fun e' he' => hm _ (List.mem_cons_of_mem _ he')) e he

theorem pos_of_mem_makeCountMap (fp : Course → String) (l : List Course) :
    ∀ e ∈ makeCountMap fp l, 0 < e.2.1 := by
  suffices h : ∀ m, (∀ e ∈ m, 0 < e.2.1) →
      ∀ e ∈ l.foldl
        (fun m c => if isTotalCourse c then m else bumpKey (fp c) c m) m,
        0 < e.2.1 by
    exact h [] (by simp)
  induction l with
  | nil => intro m hm; simpa using hm
  | cons c rest ih =>
    intro m hm
    simp only [List.foldl_cons]
    by_cases hc : isTotalCourse c
    · simp only [hc, if_true, ite_true]
      exact ih m hm
    · simp only [hc, if_false, ite_false]
      exact ih _ (pos_of_mem_bumpKey _ _ _ hm)

theorem lookupC_isSome_iff (m : CMap) (k : String) :
    (lookupC m k).isSome ↔ k ∈ m.map (fun e => e.1) := by
  induction m with
  | nil => simp [lookupC]
  | cons e rest ih =>
    obtain ⟨k1, q⟩ := e
    by_cases h1 : k1 = k
    · subst h1; simp [lookupC]
    · simp [lookupC, h1, Ne.symm h1, ih]

theorem keys_bumpKey (k : String) (c : Course) (m : CMap) :
    (bumpKey k c m).map (fun e => e.1) =
      if (lookupC m k).isSome then m.map (fun e => e.1)
      else m.map (fun e => e.1) ++ [k] := by
  induction m with
  | nil => simp [bumpKey, lookupC]
  | cons e rest ih =>
    obtain ⟨k1, q⟩ := e
    by_cases h1 : k1 = k
    · subst h1; simp [bumpKey, lookupC]
    · by_cases h2 : (lookupC rest k).isSome <;>
        simp [bumpKey, lookupC, h1, h2, ih]

theorem keys_nodup_bumpKey (k : String) (c : Course) (m : CMap)
    (hm : (m.map (fun e => e.1)).Nodup) :
    ((bumpKey k c m).map (fun e => e.1)).Nodup := by
  rw [keys_bumpKey]
  by_cases h : (lookupC m k).isSome
  · simpa [h] using hm
  · have hk : k ∉ m.map (fun e => e.1) := by
      rw [← lookupC_isSome_iff]
      simpa using h
    simp only [h, if_false, ite_false]
    simp [List.nodup_append, hm, hk]


theorem keys_nodup_makeCountMap (fp : Course → String) (l : List Course) :
    ((makeCountMap fp l).map (fun e => e.1)).Nodup := by
  suffices h : ∀ m : CMap, (m.map (fun e => e.1)).Nodup →
      ((l.foldl
        (fun m c => if isTotalCourse c then m else bumpKey (fp c) c m)
        m).map (fun e => e.1)).Nodup by
    exact h [] (by simp)
  induction l with
  | nil => intro m hm; simpa using hm
  | cons c rest ih =>
    intro m hm
    simp only [List.foldl_cons]
    by_cases hc : isTotalCourse c
    · simp only [hc, if_true, ite_true]; exact ih m hm
    · simp only [hc, if_false, ite_false]
      exact ih _ (keys_nodup_bumpKey _ _ _ hm)

theorem lookupC_eq_of_mem (m : CMap) (hm : (m.map (fun e => e.1)).Nodup)
    (k : String) (p : Nat × Course) (hmem : (k, p) ∈ m) :
    lookupC m k = some p := by
  induction m with
  | nil => simp at hmem
  | cons e rest ih =>
    obtain ⟨k1, q⟩ := e
    simp only [List.map_cons, List.nodup_cons] at hm
    rcases List.mem_cons.1 hmem with h | h
    · injection h with h1 h2
      subst h1
      simp [lookupC, h2.symm]
    · have hne : k1 ≠ k := by
        intro hk
        subst hk
        exact hm.1 (List.mem_map.2 ⟨(k1, p), h, rfl⟩)
      simp [lookupC, hne, ih hm.2 h]

theorem entryCount_of_mem (fp : Course → String) (l : List Course)
    (k : String) (p : Nat × Course) (hmem : (k, p) ∈ makeCountMap fp l) :
    p.1 = (nonTotalFps fp l).count k := by
  have h := lookupC_eq_of_mem _ (keys_nodup_makeCountMap fp l) k p hmem
  have h2 := entryCount_makeCountMap fp l k
  rw [entryCount, h] at h2
  exact h2

theorem count_pos_of_mem (fp : Course → String) (l : List Course)
    (k : String) (p : Nat × Course) (hmem : (k, p) ∈ makeCountMap fp l) :
    0 < (nonTotalFps fp l).count k := by
  have h1 := pos_of_mem_makeCountMap fp l _ hmem
  have h2 := entryCount_of_mem fp l k p hmem
  simpa [← h2] using h1

theorem lookupC_makeCountMap_isSome (fp : Course → String) (l : List Course)
    (k : String) (h : 0 < (nonTotalFps fp l).count k) :
    (lookupC (makeCountMap fp l) k).isSome := by
  by_contra hn
  have h0 : lookupC (makeCountMap fp l) k = none := by
    cases he : lookupC (makeCountMap fp l) k
    · rfl
    · exact absurd (by simp [he]) hn
  have h2 := entryCount_makeCountMap fp l k
  rw [entryCount, h0] at h2
  simp at h2
  omega

theorem collectMissing_eq_nil (fMap vMap : CMap)
    (h : ∀ e ∈ vMap, (lookupC fMap e.1).isSome) :
    collectMissing fMap vMap = [] := by
  induction vMap with
  | nil => rfl
  | cons e rest ih =>
    obtain ⟨k, n, c⟩ := e
    have h1 := h _ (List.mem_cons_self _ _)
    cases he : lookupC fMap k
    · rw [he] at h1; simp at h1
    · simp only [collectMissing, he]
      exact ih fun e hmem => h _ (List.mem_cons_of_mem _ hmem)

theorem collectCountMis_eq_nil (fMap vMap : CMap)
    (h : ∀ e ∈ vMap, ∀ p, lookupC fMap e.1 = some p → p.1 = e.2.1) :
    collectCountMis fMap vMap = [] := by
  induction vMap with
  | nil => rfl
  | cons e rest ih =>
    obtain ⟨k, n, c⟩ := e
    have ihr := ih fun e hmem => h _ (List.mem_cons_of_mem _ hmem)
    cases he : lookupC fMap k with
    | none => simp only [collectCountMis, he]; exact ihr
    | some p =>
      have h1 := h _ (List.mem_cons_self _ _) p he
      obtain ⟨fn, fc⟩ := p
      simp only at h1
      simp only [collectCountMis, he, h1, ne_eq, not_true_eq_false, if_false,
        ite_false]
      exact ihr

theorem collectExtra_eq_nil (vMap fMap : CMap)
    (h : ∀ e ∈ fMap, (lookupC vMap e.1).isSome) :
    collectExtra vMap fMap = [] := by
  induction fMap with
  | nil => rfl
  | cons e rest ih =>
    obtain ⟨k, n, c⟩ := e
    have h1 := h _ (List.mem_cons_self _ _)
    have h2 : (lookupC vMap k).isNone = false := by
      cases he : lookupC vMap k
      · rw [he] at h1; simp at h1
      · rfl
    simp only [collectExtra, h2, if_false, ite_false]
    exact ih fun e hmem => h _ (List.mem_cons_of_mem _ hmem)

/-- Core of the multiset-symmetry property, for either tool: equal
fingerprint multisets of non-total courses give an empty diff list. -/
theorem compareSemestersCore_eq_nil (aware : Bool) (f v : Semester)
    (h : (nonTotalFps (fingerprintOf aware) f.courses).Perm
      (nonTotalFps (fingerprintOf aware) v.courses)) :
    compareSemestersCore aware f v = [] := by
  set fp := fingerprintOf aware with hfp
  have hcount : ∀ k, (nonTotalFps fp f.courses).count k =
      (nonTotalFps fp v.courses).count k := fun k => h.count_eq k
  have hmiss : collectMissing (makeCountMap fp f.courses)
      (makeCountMap fp v.courses) = [] := by
    apply collectMissing_eq_nil
    intro e hmem
    obtain ⟨k, p⟩ := e
    apply lookupC_makeCountMap_isSome
    rw [hcount]
    exact count_pos_of_mem fp v.courses k p hmem
  have hcm : collectCountMis (makeCountMap fp f.courses)
      (makeCountMap fp v.courses) = [] := by
    apply collectCountMis_eq_nil
    intro e hmem p hp
    obtain ⟨k, q⟩ := e
    have h2 : (k, p) ∈ makeCountMap fp f.courses := lookupC_mem _ _ _ hp
    have h3 := entryCount_of_mem fp f.courses k p h2
    have h4 := entryCount_of_mem fp v.courses k q hmem
    simp only
    rw [h3, hcount, ← h4]
  have hex : collectExtra (makeCountMap fp v.courses)
      (makeCountMap fp f.courses) = [] := by
    apply collectExtra_eq_nil
    intro e hmem
    obtain ⟨k, p⟩ := e
    apply lookupC_makeCountMap_isSome
    rw [← hcount]
    exact count_pos_of_mem fp f.courses k p hmem
  simp only [compareSemestersCore, ← hfp, hmiss, hcm, hex, pairLoop,
    List.map_nil, List.zip_nil_left, List.filterMap_nil, List.append_nil,
    List.nil_append]

/-- C1: for a matched term pair whose live and reference courses have
pairwise-equal fingerprints with equal multiplicities, ignoring order
and total-marker courses, both reconciliation functions return the empty
diff list. -/
theorem claim_C1_multiset_symmetry (f v : Semester)
    (hP : (nonTotalFps fingerprintP f.courses).Perm
      (nonTotalFps fingerprintP v.courses))
    (hA : (nonTotalFps fingerprintAI f.courses).Perm
      (nonTotalFps fingerprintAI v.courses)) :
    compareSemesters f v = [] ∧ compareSemestersAI f v = [] :=
  ⟨compareSemestersCore_eq_nil true f v (by simpa [fingerprintOf] using hP),
    compareSemestersCore_eq_nil false f v (by simpa [fingerprintOf] using hA)⟩


/-- Witness for C1: a concrete reordered pair of course lists satisfies
both permutation hypotheses and yields empty diff lists. -/
theorem claim_C1_multiset_symmetry_witness :
    ((nonTotalFps fingerprintP
        [Course.mk none (some "CS101") (some "Intro") (some "3") none,
         Course.mk none (some "MT100") (some "Calc") (some "3+1") none]).Perm
      (nonTotalFps fingerprintP
        [Course.mk none (some "MT100") (some "Calc") (some "3+1") none,
         Course.mk none (some "CS101") (some "Intro") (some "3") none])) ∧
    compareSemesters
      ⟨"Semester 1",
        [Course.mk none (some "CS101") (some "Intro") (some "3") none,
         Course.mk none (some "MT100") (some "Calc") (some "3+1") none]⟩
      ⟨"Semester 1",
        [Course.mk none (some "MT100") (some "Calc") (some "3+1") none,
         Course.mk none (some "CS101") (some "Intro") (some "3") none]⟩ = [] :=
  ⟨by decide,
    (claim_C1_multiset_symmetry
      ⟨"Semester 1",
        [Course.mk none (some "CS101") (some "Intro") (some "3") none,
         Course.mk none (some "MT100") (some "Calc") (some "3+1") none]⟩
      ⟨"Semester 1",
        [Course.mk none (some "MT100") (some "Calc") (some "3+1") none,
         Course.mk none (some "CS101") (some "Intro") (some "3") none]⟩
      (by decide) (by decide)).1⟩

/-! Lemmas about the ranks of emitted diffs, for the output-ordering
claim. -/

theorem pairStep_rank (aware : Bool) (a b : Course) (d : Diff)
    (h : pairStep aware a b = some d) : d.rank = 0 := by
  unfold pairStep at h
  split_ifs at h
  · injection h with h1
    subst h1; rfl
  · injection h with h1
    subst h1; rfl

theorem findPair_rank (aware : Bool) (mC : Course)
    (es : List ((String × Nat × Course) × Bool)) (j : Nat) (d : Diff)
    (h : findPair aware mC es = some (j, d)) : d.rank = 0 := by
  induction es generalizing j with
  | nil => simp [findPair] at h
  | cons eb rest ih =>
    obtain ⟨e, used⟩ := eb
    by_cases hu : used = true
    · simp only [findPair, hu, if_true, ite_true] at h
      rcases Option.map_eq_some'.1 h with ⟨⟨j0, d0⟩, hp, he⟩
      injection he with he1 he2
      subst he2
      exact ih j0 hp
    · have hu2 : used = false := by simpa using hu
      simp only [findPair, hu2, Bool.false_eq_true, if_false, ite_false] at h
      cases hs : pairStep aware mC e.2.2 with
      | none =>
        rw [hs] at h
        rcases Option.map_eq_some'.1 h with ⟨⟨j0, d0⟩, hp, he⟩
        injection he with he1 he2
        subst he2
        exact ih j0 hp
      | some d0 =>
        rw [hs] at h
        injection h with h1
        injection h1 with h2 h3
        subst h3
        exact pairStep_rank aware mC e.2.2 d0 hs

theorem pairLoop_rank (aware : Bool)
    (ms : List (String × Nat × Course))
    (es : List ((String × Nat × Course) × Bool)) (d : Diff)
    (h : d ∈ (pairLoop aware ms es).1) : d.rank = 0 := by
  induction ms generalizing es with
  | nil => simp [pairLoop] at h
  | cons m rest ih =>
    simp only [pairLoop] at h
    cases hf : findPair aware m.2.2 es with
    | none =>
      rw [hf] at h
      exact ih es h
    | some p =>
      obtain ⟨j, d0⟩ := p
      rw [hf] at h
      simp only [List.mem_cons] at h
      rcases h with h | h
      · subst h
        exact findPair_rank aware m.2.2 es j d hf
      · exact ih (markUsed es j) h

theorem pairwise_rank_const (l : List Diff) (r : Nat)
    (h : ∀ d ∈ l, d.rank = r) :
    l.Pairwise (fun a b => a.rank ≤ b.rank) := by
  induction l with
  | nil => exact List.Pairwise.nil
  | cons x xs ih =>
    refine List.Pairwise.cons ?_ (ih fun d hd => h d (List.mem_cons_of_mem _ hd))
    intro b hb
    rw [h x (List.mem_cons_self _ _), h b (List.mem_cons_of_mem _ hb)]

/-- Decomposition of the engine output into its four ordered category
blocks: paired diffs, unpaired missing, unpaired extra, count
mismatches. -/
theorem compareSemestersCore_decomp (aware : Bool) (f v : Semester) :
    ∃ p ms ex cm, compareSemestersCore aware f v = p ++ ms ++ ex ++ cm ∧
      (∀ d ∈ p, d.rank = 0) ∧ (∀ d ∈ ms, d.rank = 1) ∧
      (∀ d ∈ ex, d.rank = 2) ∧ (∀ d ∈ cm, d.rank = 3) := by
  refine ⟨_, _, _, _, rfl, ?_, ?_, ?_, ?_⟩
  · intro d hd
    exact pairLoop_rank aware _ _ d hd
  · intro d hd
    rcases List.mem_filterMap.1 hd with ⟨a, ha, hfa⟩
    split_ifs at hfa
    injection hfa with h1
    subst h1; rfl
  · intro d hd
    rcases List.mem_filterMap.1 hd with ⟨a, ha, hfa⟩
    split_ifs at hfa
    injection hfa with h1
    subst h1; rfl
  · intro d hd
    rcases List.mem_map.1 hd with ⟨a, ha, hfa⟩
    subst hfa; rfl

theorem compareSemestersCore_rank_sorted (aware : Bool) (f v : Semester) :
    (compareSemestersCore aware f v).Pairwise
      (fun a b => a.rank ≤ b.rank) := by
  obtain ⟨p, ms, ex, cm, heq, hp, hm, he, hc⟩ :=
    compareSemestersCore_decomp aware f v
  rw [heq]
  rw [List.append_assoc, List.append_assoc]
  rw [List.pairwise_append]
  refine ⟨pairwise_rank_const p 0 hp, ?_, ?_⟩
  · rw [List.pairwise_append]
    refine ⟨pairwise_rank_const ms 1 hm, ?_, ?_⟩
    · rw [List.pairwise_append]
      refine ⟨pairwise_rank_const ex 2 he, pairwise_rank_const cm 3 hc, ?_⟩
      intro a ha b hb
      rw [he a ha, hc b hb]
      omega
    · intro a ha b hb
      rcases List.mem_append.1 hb with hb | hb
      · rw [hm a ha, he b hb]; omega
      · rw [hm a ha, hc b hb]; omega
  · intro a ha b hb
    have h0 := hp a ha
    rcases List.mem_append.1 hb with hb | hb
    · rw [h0, hm b hb]; omega
    · rcases List.mem_append.1 hb with hb | hb
      · rw [h0, he b hb]; omega
      · rw [h0, hc b hb]; omega



/-- C3: with the reference term holding a course twice and the live term
holding it once (not a total marker), both reconciliation functions emit
exactly one count-mismatch for its fingerprint, with fetchedCount 1 and
validCount 2, and the fingerprint is neither a missing nor an extra
candidate (so it is never paired). -/
theorem claim_C3_count_sensitivity (nf nv : String) (x : Course)
    (hx : isTotalCourse x = false) :
    compareSemesters ⟨nf, [x]⟩ ⟨nv, [x, x]⟩ = [Diff.countMismatch x 1 2] ∧
    compareSemestersAI ⟨nf, [x]⟩ ⟨nv, [x, x]⟩ = [Diff.countMismatch x 1 2] ∧
    collectMissing (makeCountMap fingerprintP [x])
      (makeCountMap fingerprintP [x, x]) = [] ∧
    collectExtra (makeCountMap fingerprintP [x, x])
      (makeCountMap fingerprintP [x]) = [] := by
  have core : ∀ aware : Bool,
      compareSemestersCore aware ⟨nf, [x]⟩ ⟨nv, [x, x]⟩ =
        [Diff.countMismatch x 1 2] := by
    intro aware
    simp [compareSemestersCore, makeCountMap, bumpKey, hx, lookupC,
      collectMissing, collectCountMis, collectExtra, pairLoop]
  refine ⟨core true, core false, ?_, ?_⟩ <;>
    simp [makeCountMap, bumpKey, hx, lookupC, collectMissing, collectExtra]

/-- Witness for C3: a concrete non-total course exercises the
count-sensitivity theorem. -/
theorem claim_C3_count_sensitivity_witness :
    isTotalCourse
      (Course.mk none (some "CS101") (some "Prog") (some "3") none) = false ∧
    compareSemesters
      ⟨"A", [Course.mk none (some "CS101") (some "Prog") (some "3") none]⟩
      ⟨"B", [Course.mk none (some "CS101") (some "Prog") (some "3") none,
             Course.mk none (some "CS101") (some "Prog") (some "3") none]⟩ =
      [Diff.countMismatch
        (Course.mk none (some "CS101") (some "Prog") (some "3") none) 1 2] :=
  ⟨by decide,
    (claim_C3_count_sensitivity "A" "B"
      (Course.mk none (some "CS101") (some "Prog") (some "3") none)
      (by decide)).1⟩


/-- C10: a course whose code normalizes to the empty string and whose
title is absent or empty is never a total marker; it enters the count
maps of both tools with a fingerprint built from credits (and, in the
prerequisite-aware tool, prerequisite) alone, whatever its credits
contain. -/
theorem claim_C10_blank_course_not_total (c : Course)
    (hc : normalizeCode c.code = "") (ht : titleLowerOf c = "") :
    isTotalCourse c = false ∧
    fingerprintP c =
      "|" ++ normalizeCredits c.credits ++ "|" ++
        normalizePrereq c.prerequisite ∧
    fingerprintAI c = "|" ++ normalizeCredits c.credits ∧
    makeCountMap fingerprintP [c] = [(fingerprintP c, 1, c)] ∧
    makeCountMap fingerprintAI [c] = [(fingerprintAI c, 1, c)] := by
  have htot : isTotalCourse c = false := by
    simp [isTotalCourse, hc, ht]
  refine ⟨htot, ?_, ?_, ?_, ?_⟩
  · simp [fingerprintP, hc]
  · simp [fingerprintAI, hc]
  · simp [makeCountMap, bumpKey, htot]
  · simp [makeCountMap, bumpKey, htot]

/-- Witness for C10: a codeless, titleless course whose credits field
even contains the word total still participates in comparison. -/
theorem claim_C10_blank_course_not_total_witness :
    normalizeCode (Course.mk none none none (some "TOTAL") none).code = "" ∧
    titleLowerOf (Course.mk none none none (some "TOTAL") none) = "" ∧
    isTotalCourse (Course.mk none none none (some "TOTAL") none) = false :=
  ⟨by decide, by decide,
    (claim_C10_blank_course_not_total
      (Course.mk none none none (some "TOTAL") none)
      (by decide) (by decide)).1⟩


theorem listIncludes_nil (l : List Char) : listIncludes [] l = true := by
  induction l with
  | nil => rfl
  | cons c cs ih => simp [listIncludes, leadsWith, ih]

/-- C9: when either member of a missing/extra candidate pair has an
absent or empty title, the substring test of the title-similarity
disjunction holds trivially (the empty string is a substring of every
string, in either direction of the symmetric test), so a missing
candidate and an extra candidate with equal normalized credits that are
not taken by the equal-code prerequisite branch (here: their codes
differ) are always paired as a code-mismatch, however dissimilar the
other, non-empty title is. -/
theorem claim_C9_empty_title_always_pairs (nf nv : String) (m e : Course)
    (hm : isTotalCourse m = false) (he : isTotalCourse e = false)
    (hfpP : fingerprintP m ≠ fingerprintP e)
    (hfpA : fingerprintAI m ≠ fingerprintAI e)
    (hcr : normalizeCredits m.credits = normalizeCredits e.credits)
    (hcode : normalizeCode m.code ≠ normalizeCode e.code)
    (htitle : m.title.getD "" = "" ∨ e.title.getD "" = "") :
    (∀ a b : Option String, a.getD "" = "" ∨ b.getD "" = "" →
      subsCheck a b = true) ∧
    (∀ a b : Option String, a.getD "" = "" ∨ b.getD "" = "" →
      titlesSimilar a b = true) ∧
    compareSemesters ⟨nf, [e]⟩ ⟨nv, [m]⟩ = [Diff.codeMismatch e m] ∧
    compareSemestersAI ⟨nf, [e]⟩ ⟨nv, [m]⟩ = [Diff.codeMismatch e m] := by
  have hsubs : ∀ a b : Option String, a.getD "" = "" ∨ b.getD "" = "" →
      subsCheck a b = true := by
    intro a b hab
    rcases hab with ha | hb
    · have h1 : jsIncludes (jsLower (b.getD "")) (jsLower (a.getD "")) =
          true := by
        rw [ha]
        simpa [jsIncludes, jsLower] using
          listIncludes_nil (jsLower (b.getD "")).data
      simp [subsCheck, h1]
    · have h1 : jsIncludes (jsLower (a.getD "")) (jsLower (b.getD "")) =
          true := by
        rw [hb]
        simpa [jsIncludes, jsLower] using
          listIncludes_nil (jsLower (a.getD "")).data
      simp [subsCheck, h1]
  have hsimgen : ∀ a b : Option String, a.getD "" = "" ∨ b.getD "" = "" →
      titlesSimilar a b = true := by
    intro a b hab
    simp [titlesSimilar, hsubs a b hab]
  have hsim : titlesSimilar m.title e.title = true :=
    hsimgen m.title e.title htitle
  have core : ∀ aware : Bool,
      (fingerprintOf aware e == fingerprintOf aware m) = false →
      (fingerprintOf aware m == fingerprintOf aware e) = false →
      compareSemestersCore aware ⟨nf, [e]⟩ ⟨nv, [m]⟩ =
        [Diff.codeMismatch e m] := by
    intro aware hb1 hb2
    have hcrb : (normalizeCredits m.credits == normalizeCredits e.credits) =
        true := by simp [hcr]
    have hcodeb : (normalizeCode m.code == normalizeCode e.code) = false := by
      simp only [beq_eq_false_iff_ne, ne_eq]
      exact hcode
    simp [compareSemestersCore, makeCountMap, bumpKey, he, hm, lookupC,
      collectMissing, collectCountMis, collectExtra, pairLoop, findPair,
      pairStep, markUsed, hb1, hb2, hcrb, hcodeb, hsim]
  refine ⟨hsubs, hsimgen, ?_, ?_⟩
  · exact core true
      (by simpa [fingerprintOf, beq_eq_false_iff_ne] using Ne.symm hfpP)
      (by simpa [fingerprintOf, beq_eq_false_iff_ne] using hfpP)
  · exact core false
      (by simpa [fingerprintOf, beq_eq_false_iff_ne] using Ne.symm hfpA)
      (by simpa [fingerprintOf, beq_eq_false_iff_ne] using hfpA)

/-- Witness for C9, exercising both orientations: a titleless extra
candidate pairs with a missing candidate carrying an arbitrary unrelated
title, and a titleless missing candidate pairs with an extra candidate
carrying an arbitrary unrelated title. -/
theorem claim_C9_empty_title_always_pairs_witness :
    (compareSemesters
      ⟨"A", [Course.mk none (some "XX999") none (some "3") none]⟩
      ⟨"B", [Course.mk none (some "CS101")
        (some "Quantum Basket Weaving") (some "3") none]⟩ =
      [Diff.codeMismatch
        (Course.mk none (some "XX999") none (some "3") none)
        (Course.mk none (some "CS101")
          (some "Quantum Basket Weaving") (some "3") none)]) ∧
    (compareSemesters
      ⟨"A", [Course.mk none (some "XX999")
        (some "Quantum Basket Weaving") (some "3") none]⟩
      ⟨"B", [Course.mk none (some "CS101") none (some "3") none]⟩ =
      [Diff.codeMismatch
        (Course.mk none (some "XX999")
          (some "Quantum Basket Weaving") (some "3") none)
        (Course.mk none (some "CS101") none (some "3") none)]) :=
  ⟨(claim_C9_empty_title_always_pairs "A" "B"
      (Course.mk none (some "CS101") (some "Quantum Basket Weaving")
        (some "3") none)
      (Course.mk none (some "XX999") none (some "3") none)
      (by decide) (by decide) (by decide) (by decide) (by decide) (by decide)
      (by decide)).2.2.1,
    (claim_C9_empty_title_always_pairs "A" "B"
      (Course.mk none (some "CS101") none (some "3") none)
      (Course.mk none (some "XX999") (some "Quantum Basket Weaving")
        (some "3") none)
      (by decide) (by decide) (by decide) (by decide) (by decide) (by decide)
      (by decide)).2.2.1⟩


/-- Counterexample to C6 as stated: the positional branch trims each cell
(and turns blank cells into null) instead of keeping the credits cell as
a raw string and capturing the prerequisite cell verbatim. -/
theorem claim_C6_counterexample :
    (parseCourseFromCells ["CS101", "Title", " 3 ", "x", " MT 101 "]).credits =
      some "3" ∧
    (parseCourseFromCells
      ["CS101", "Title", " 3 ", "x", " MT 101 "]).prerequisite =
      some "MT 101" ∧
    ¬((parseCourseFromCells ["CS101", "Title", " 3 ", "x", " MT 101 "]).credits =
        some " 3 " ∧
      (parseCourseFromCells
        ["CS101", "Title", " 3 ", "x", " MT 101 "]).prerequisite =
        some " MT 101 ") := by
  refine ⟨by decide, by decide, ?_⟩
  intro h
  exact absurd h.1 (by decide)

/-- C6 amended: with at least three cells after the serial offset, the
positional branch maps code, title and credits from the cells at the
offset and the next two, and the prerequisite from the cell at offset
plus four when one exists — each value trimmed, with empty-after-trim
becoming null, rather than kept verbatim. -/
theorem claim_C6_positional_trimmed (cells : List String)
    (hlen : cells.length ≥
      (if isAllDigits (jsGetCell cells 0) then 1 else 0) + 3) :
    parseCourseFromCells cells =
      { serial :=
          if isAllDigits (jsGetCell cells 0) then
            some (jsTrim (jsGetCell cells 0))
          else none
        code := toNullable (jsTrim (jsGetCell cells
          (if isAllDigits (jsGetCell cells 0) then 1 else 0)))
        title := toNullable (jsTrim (jsGetCell cells
          ((if isAllDigits (jsGetCell cells 0) then 1 else 0) + 1)))
        credits := toNullable (jsTrim (jsGetCell cells
          ((if isAllDigits (jsGetCell cells 0) then 1 else 0) + 2)))
        prerequisite :=
          if cells.length ≥
              (if isAllDigits (jsGetCell cells 0) then 1 else 0) + 5 then
            toNullable (jsTrim (jsGetCell cells
              ((if isAllDigits (jsGetCell cells 0) then 1 else 0) + 4)))
          else none } := by
  simp only [parseCourseFromCells]
  rw [if_pos hlen]

/-- Witness for the amended C6 at a concrete serial-led row. -/
theorem claim_C6_positional_trimmed_witness :
    (["1", "CS101", "Prog", "3"] : List String).length ≥
      (if isAllDigits (jsGetCell ["1", "CS101", "Prog", "3"] 0) then 1
        else 0) + 3 ∧
    parseCourseFromCells ["1", "CS101", "Prog", "3"] =
      Course.mk (some "1") (some "CS101") (some "Prog") (some "3") none := by
  refine ⟨by decide, ?_⟩
  rw [claim_C6_positional_trimmed ["1", "CS101", "Prog", "3"] (by decide)]
  decide


/-- Counterexample to C7 as stated: two Strategy B tables share the
semester-matching header name, no Strategy A term has it, yet only the
first table is parsed — the name check runs against the growing catalog,
which includes earlier Strategy B results. -/
theorem claim_C7_counterexample :
    containsSemesterCI "Semester 1" = true ∧
    (strategyB []
      [BTable.mk "Semester 1" [BRow.mk "1" ["CS101", "Intro", "3"]],
       BTable.mk "Semester 1" [BRow.mk "1" ["MT100", "Calc", "3"]]]).length =
      1 := by
  constructor
  · decide
  · decide

/-- C7 amended: Strategy B appends, to the catalog the earlier strategy
produced, the parse of every table whose first header cell matches the
semester pattern and whose name is not already in the catalog built so
far — that is, not produced by Strategy A nor by an earlier Strategy B
table. -/
theorem claim_C7_strategyB_name_check :
    ∀ (tables : List BTable) (sems : List Semester),
      strategyB sems tables =
        sems ++ strategyBGo (sems.map (fun s => s.name)) tables := by
  intro tables
  induction tables with
  | nil => intro sems; simp [strategyB, strategyBGo]
  | cons t ts ih =>
    intro sems
    have hany : ((sems.map (fun s => s.name)).any
        (fun n => n == t.headText)) =
        sems.any (fun s => s.name == t.headText) := by
      induction sems with
      | nil => rfl
      | cons s ss ihs => simp only [List.map_cons, List.any_cons, ihs]
    by_cases h1 : containsSemesterCI t.headText
    · by_cases h2 : ∃ x ∈ sems, x.name = t.headText
      · have hl : strategyB sems (t :: ts) = strategyB sems ts := by
          simp [strategyB, List.foldl_cons, h1, h2]
        have hr : strategyBGo (sems.map (fun s => s.name)) (t :: ts) =
            strategyBGo (sems.map (fun s => s.name)) ts := by
          have h2b : (sems.any fun s => s.name == t.headText) = true := by
            simpa using h2
          simp [strategyBGo, h1, hany, h2b]
        rw [hl, hr, ih sems]
      · have hl : strategyB sems (t :: ts) =
            strategyB (sems ++ [parseBTable t]) ts := by
          simp [strategyB, List.foldl_cons, h1, h2]
        have hr : strategyBGo (sems.map (fun s => s.name)) (t :: ts) =
            parseBTable t ::
              strategyBGo (sems.map (fun s => s.name) ++ [t.headText]) ts := by
          have h2b : (sems.any fun s => s.name == t.headText) = false := by
            simpa using h2
          simp [strategyBGo, h1, hany, h2b]
        rw [hl, ih (sems ++ [parseBTable t]), hr]
        simp [parseBTable]
    · have h1f : containsSemesterCI t.headText = false := by simpa using h1
      have hl : strategyB sems (t :: ts) = strategyB sems ts := by
        simp [strategyB, List.foldl_cons, h1f]
      have hr : strategyBGo (sems.map (fun s => s.name)) (t :: ts) =
          strategyBGo (sems.map (fun s => s.name)) ts := by
        simp [strategyBGo, h1f]
      rw [hl, hr, ih sems]


/-- C4: normalizeSemKey lowercases, turns the listed punctuation into
spaces, collapses whitespace, maps roman numerals one-to-five to digits
(after the word semester and standalone) and unifies pre-medical
spellings; in particular Semester-2 and Semester II share the normalized
key semester 2, so the term matcher pairs them and the report compares
them as one pair instead of two unmatched terms. -/
theorem claim_C4_term_name_normalization :
    normalizeSemKey "Semester-2" = "semester 2" ∧
    normalizeSemKey "Semester II" = "semester 2" ∧
    normalizeSemKey "Pre-Medical (Semester IV)" = "pre medical semester 4" ∧
    normalizeSemKey "SEMESTER: V" = "semester 5" ∧
    normalizeSemKey "Part I" = "part 1" ∧
    normalizeSemKey "pre - medical" = "pre medical" ∧
    (∀ cs vs : List Course,
      findMatchedKey "Semester-2"
        (buildSheetSemesterMap [⟨"Semester II", vs⟩]) = some "Semester II" ∧
      (buildReport [⟨"Semester-2", cs⟩] [⟨"Semester II", vs⟩]).map
        (fun e => (e.name, e.validKey)) =
        [("Semester-2", "Semester II")]) := by
  refine ⟨by decide, by decide, by decide, by decide, by decide, by decide,
    ?_⟩
  intro cs vs
  have hmap : buildSheetSemesterMap [⟨"Semester II", vs⟩] =
      [("Semester II", vs)] := by
    simp [buildSheetSemesterMap, addSheetSem]
  have h1 : ("Semester II" == "Semester-2") = false := by decide
  have h2 : (normalizeSemKey "Semester II" == normalizeSemKey "Semester-2") =
      true := by decide
  have hf : findMatchedKey "Semester-2" [("Semester II", vs)] =
      some "Semester II" := by
    simp [findMatchedKey, firstKeyWith, h1, h2]
  constructor
  · rw [hmap, hf]
  · simp [buildReport, hmap, buildReportLoop, hf, lookupSheet,
      unmatchedEntries]


/-- Counterexample to C8 as stated: the report emits the literal type
string missing-in-fetched, which is not in the claimed five-element
vocabulary (the same holds for extra-in-fetched). -/
theorem claim_C8_counterexample :
    (buildReport [⟨"Semester 1", []⟩]
        [⟨"Semester 1",
          [Course.mk none (some "CS101") (some "Calculus") (some "3")
            none]⟩]).map (fun e => e.diffs.map Diff.typeStr) =
      [["missing-in-fetched"]] ∧
    "missing-in-fetched" ∉
      (["missing", "extra", "count-mismatch", "code-mismatch",
        "prerequisite-mismatch"] : List String) := by
  constructor
  · decide
  · decide

theorem diff_typeStr_mem (d : Diff) :
    d.typeStr ∈
      (["missing-in-fetched", "extra-in-fetched", "count-mismatch",
        "code-mismatch", "prerequisite-mismatch"] : List String) := by
  cases d <;> simp [Diff.typeStr]

theorem buildReportLoop_diffCount (sheetMap : List (String × List Course)) :
    ∀ sems : List Semester, ∀ e ∈ (buildReportLoop sheetMap sems).1,
      e.diffCount = e.diffs.length := by
  intro sems
  induction sems with
  | nil => intro e he; simp [buildReportLoop] at he
  | cons sem rest ih =>
    intro e he
    simp only [buildReportLoop, List.mem_cons] at he
    rcases he with he | he
    · subst he; rfl
    · exact ih e he

theorem unmatchedEntries_diffCount (matched : List String) :
    ∀ m : List (String × List Course), ∀ e ∈ unmatchedEntries matched m,
      e.diffCount = e.diffs.length := by
  intro m
  induction m with
  | nil => intro e he; simp [unmatchedEntries] at he
  | cons kv rest ih =>
    intro e he
    obtain ⟨key, cs⟩ := kv
    by_cases h1 : matched.contains key
    · simp only [unmatchedEntries, h1, if_true, ite_true] at he
      exact ih e he
    · have h1f : matched.contains key = false := by simpa using h1
      simp only [unmatchedEntries, h1f, Bool.false_eq_true, if_false,
        ite_false] at he
      by_cases h2 : (compareSemesters ⟨key, []⟩ ⟨key, cs⟩).length > 0
      · rw [if_pos h2] at he
        rcases List.mem_cons.1 he with he | he
        · subst he; rfl
        · exact ih e he
      · rw [if_neg h2] at he
        exact ih e he

/-- C8 amended: every diff of every report entry carries a type drawn
from the five literal strings missing-in-fetched, extra-in-fetched,
count-mismatch, code-mismatch, prerequisite-mismatch (the first two are
not the bare missing and extra of the claim), and every term entry
carries name, validKey, diffCount and diffs fields with diffCount equal
to the number of diffs. -/
theorem claim_C8_report_vocabulary (scraped sheet : List Semester) :
    ∀ e ∈ buildReport scraped sheet,
      e.diffCount = e.diffs.length ∧
      ∀ d ∈ e.diffs, d.typeStr ∈
        (["missing-in-fetched", "extra-in-fetched", "count-mismatch",
          "code-mismatch", "prerequisite-mismatch"] : List String) := by
  intro e he
  refine ⟨?_, fun d _ => diff_typeStr_mem d⟩
  simp only [buildReport] at he
  rcases List.mem_append.1 he with he | he
  · exact buildReportLoop_diffCount _ scraped e he
  · exact unmatchedEntries_diffCount _ _ e he

/-- Witness for the amended C8 at a concrete one-term report. -/
theorem claim_C8_report_vocabulary_witness :
    (ReportEntry.mk "Semester 1" "Semester 1" 1
        [Diff.missingInFetched 1
          (Course.mk none (some "CS101") (some "Calculus") (some "3")
            none)]) ∈
      buildReport [⟨"Semester 1", []⟩]
        [⟨"Semester 1",
          [Course.mk none (some "CS101") (some "Calculus") (some "3")
            none]⟩] ∧
    ((ReportEntry.mk "Semester 1" "Semester 1" 1
        [Diff.missingInFetched 1
          (Course.mk none (some "CS101") (some "Calculus") (some "3")
            none)]).diffCount =
      (ReportEntry.mk "Semester 1" "Semester 1" 1
        [Diff.missingInFetched 1
          (Course.mk none (some "CS101") (some "Calculus") (some "3")
            none)]).diffs.length ∧
      ∀ d ∈ (ReportEntry.mk "Semester 1" "Semester 1" 1
        [Diff.missingInFetched 1
          (Course.mk none (some "CS101") (some "Calculus") (some "3")
            none)]).diffs, d.typeStr ∈
        (["missing-in-fetched", "extra-in-fetched", "count-mismatch",
          "code-mismatch", "prerequisite-mismatch"] : List String)) :=
  ⟨by decide,
    claim_C8_report_vocabulary [⟨"Semester 1", []⟩]
      [⟨"Semester 1",
        [Course.mk none (some "CS101") (some "Calculus") (some "3") none]⟩]
      (ReportEntry.mk "Semester 1" "Semester 1" 1
        [Diff.missingInFetched 1
          (Course.mk none (some "CS101") (some "Calculus") (some "3")
            none)])
      (by decide)⟩


theorem data_append (a b : String) : (a ++ b).data = a.data ++ b.data := rfl

theorem foldl_pipe_data (xs : List String) :
    ∀ a : String,
      (xs.foldl (fun acc y => acc ++ "|" ++ y) a).data =
        a.data ++ pipeTail (xs.map (fun s => s.data)) := by
  induction xs with
  | nil => intro a; simp [pipeTail]
  | cons y ys ih =>
    intro a
    simp only [List.foldl_cons, ih, List.map_cons, pipeTail, data_append]
    simp [List.append_assoc]

theorem joinPipe_data_cons (x : String) (xs : List String) :
    (joinPipe (x :: xs)).data =
      x.data ++ pipeTail (xs.map (fun s => s.data)) := by
  simp [joinPipe, foldl_pipe_data]

theorem pipeSplit_no_pipe (x : List Char) (hx : ∀ c ∈ x, c ≠ '|') :
    pipeSplit x = [x] := by
  induction x with
  | nil => rfl
  | cons c cs ih =>
    have hc : (c == '|') = false := by
      simp only [beq_eq_false_iff_ne, ne_eq]
      exact hx c (List.mem_cons_self _ _)
    have ihr := ih fun c hc2 => hx c (List.mem_cons_of_mem _ hc2)
    simp [pipeSplit, hc, ihr]

theorem pipeSplit_append (x : List Char) (cs : List Char)
    (hx : ∀ c ∈ x, c ≠ '|') (p : List Char) (ps : List (List Char))
    (h : pipeSplit cs = p :: ps) :
    pipeSplit (x ++ cs) = (x ++ p) :: ps := by
  induction x with
  | nil => simpa using h
  | cons c ct ih =>
    have hc : (c == '|') = false := by
      simp only [beq_eq_false_iff_ne, ne_eq]
      exact hx c (List.mem_cons_self _ _)
    have ihr := ih fun c hc2 => hx c (List.mem_cons_of_mem _ hc2)
    simp [pipeSplit, hc, ihr]

theorem pipeSplit_joinPipe (l : List String) (hl : l ≠ [])
    (hp : ∀ x ∈ l, ∀ c ∈ x.data, c ≠ '|') :
    pipeSplit (joinPipe l).data = l.map (fun s => s.data) := by
  induction l with
  | nil => exact absurd rfl hl
  | cons x xs ih =>
    cases xs with
    | nil =>
      have h1 : joinPipe [x] = x := rfl
      rw [h1]
      simp [pipeSplit_no_pipe x.data (hp x (List.mem_cons_self _ _))]
    | cons y ys =>
      have hx : ∀ c ∈ x.data, c ≠ '|' := hp x (List.mem_cons_self _ _)
      have hrest : ∀ z ∈ y :: ys, ∀ c ∈ z.data, c ≠ '|' :=
        fun z hz => hp z (List.mem_cons_of_mem _ hz)
      have ihr := ih (by simp) hrest
      have hdata : (joinPipe (x :: y :: ys)).data =
          x.data ++ ('|' :: (joinPipe (y :: ys)).data) := by
        rw [joinPipe_data_cons, joinPipe_data_cons]
        simp [pipeTail, List.append_assoc]
      rw [hdata]
      have hmid : pipeSplit ('|' :: (joinPipe (y :: ys)).data) =
          [] :: pipeSplit (joinPipe (y :: ys)).data := by
        simp [pipeSplit]
      rw [ihr] at hmid
      have := pipeSplit_append x.data _ hx _ _ hmid
      rw [this]
      simp

theorem mem_takeWhile_pred {p : Char → Bool} :
    ∀ (l : List Char) (a : Char), a ∈ l.takeWhile p → p a = true := by
  intro l
  induction l with
  | nil => intro a ha; simp [List.takeWhile] at ha
  | cons c cs ih =>
    intro a ha
    by_cases hc : p c = true
    · rw [List.takeWhile_cons, if_pos hc] at ha
      rcases List.mem_cons.1 ha with ha | ha
      · subst ha; exact hc
      · exact ih a ha
    · rw [List.takeWhile_cons, if_neg hc] at ha
      simp at ha

theorem matchCodeAt_no_pipe (cs : List Char) (m r : List Char)
    (h : matchCodeAt cs = some (m, r)) : ∀ c ∈ m, c ≠ '|' := by
  unfold matchCodeAt at h
  by_cases h1 : (cs.takeWhile Char.isUpper).length < 2
  · simp [h1] at h
  · simp only [h1, if_false, ite_false] at h
    have hls : ∀ c ∈ cs.takeWhile Char.isUpper, c ≠ '|' := by
      intro c hc
      have := mem_takeWhile_pred _ c hc
      intro he
      subst he
      exact absurd this (by decide)
    cases hd : cs.drop (cs.takeWhile Char.isUpper).length with
    | nil => rw [hd] at h; exact absurd h (by simp)
    | cons c0 rest2 =>
      rw [hd] at h
      simp only at h
      by_cases h2 : (c0 == '-' || isWs c0) = true
      · rw [if_pos h2] at h
        by_cases h3 : ((rest2.takeWhile Char.isDigit).take 4).length ≥ 2
        · rw [if_pos h3] at h
          injection h with h4
          injection h4 with h5 h6
          subst h5
          intro c hc
          rcases List.mem_append.1 hc with hc | hc
          · exact hls c hc
          · rcases List.mem_cons.1 hc with hc | hc
            · subst hc
              intro he
              subst he
              have h2b : ('|' : Char) = '-' ∨ isWs '|' = true := by
                simpa [beq_iff_eq] using h2
              rcases h2b with hh | hh
              · exact absurd hh (by decide)
              · exact absurd hh (by decide)
            · have := mem_takeWhile_pred _ c (List.mem_of_mem_take hc)
              intro he
              subst he
              exact absurd this (by decide)
        · rw [if_neg h3] at h
          exact absurd h (by simp)
      · have h2f : (c0 == '-' || isWs c0) = false := by simpa using h2
        rw [h2f] at h
        simp only [Bool.false_eq_true, if_false, ite_false] at h
        by_cases h3 : (((c0 :: rest2).takeWhile Char.isDigit).take 4).length ≥ 2
        · rw [if_pos h3] at h
          injection h with h4
          injection h4 with h5 h6
          subst h5
          intro c hc
          rcases List.mem_append.1 hc with hc | hc
          · exact hls c hc
          · have := mem_takeWhile_pred _ c (List.mem_of_mem_take hc)
            intro he
            subst he
            exact absurd this (by decide)
        · rw [if_neg h3] at h
          exact absurd h (by simp)

theorem scanCodes_no_pipe :
    ∀ (fuel : Nat) (cs : List Char), ∀ m ∈ scanCodes fuel cs,
      ∀ c ∈ m, c ≠ '|' := by
  intro fuel
  induction fuel with
  | zero => intro cs m hm; simp [scanCodes] at hm
  | succ f ih =>
    intro cs m hm
    cases cs with
    | nil => simp [scanCodes] at hm
    | cons c0 ct =>
      simp only [scanCodes] at hm
      cases hmc : matchCodeAt (c0 :: ct) with
      | none =>
        rw [hmc] at hm
        exact ih ct m hm
      | some pr =>
        obtain ⟨m0, rest⟩ := pr
        rw [hmc] at hm
        rcases List.mem_cons.1 hm with hm | hm
        · subst hm
          exact matchCodeAt_no_pipe _ _ _ hmc
        · exact ih rest m hm

theorem collapseWs_no_pipe :
    ∀ l : List Char, (∀ c ∈ l, c ≠ '|') →
      ∀ b, ∀ c ∈ collapseWsWith '-' b l, c ≠ '|' := by
  intro l
  induction l with
  | nil => intro hl b c hc; simp [collapseWsWith] at hc
  | cons c0 ct ih =>
    intro hl b c hc
    have hct : ∀ c ∈ ct, c ≠ '|' :=
      fun c hc2 => hl c (List.mem_cons_of_mem _ hc2)
    by_cases hw : isWs c0 = true
    · simp only [collapseWsWith, hw, if_true, ite_true] at hc
      by_cases hb : b = true
      · simp only [hb, if_true, ite_true, List.nil_append] at hc
        exact ih hct true c hc
      · have hb2 : b = false := by simpa using hb
        simp only [hb2, Bool.false_eq_true, if_false, ite_false,
          List.singleton_append] at hc
        rcases List.mem_cons.1 hc with hc | hc
        · subst hc; decide
        · exact ih hct true c hc
    · have hw2 : isWs c0 = false := by simpa using hw
      simp only [collapseWsWith, hw2, Bool.false_eq_true, if_false,
        ite_false] at hc
      rcases List.mem_cons.1 hc with hc | hc
      · rw [hc]; exact hl c0 (List.mem_cons_self _ _)
      · exact ih hct false c hc

theorem strLeChars_total :
    ∀ a b : List Char, strLeChars a b = true ∨ strLeChars b a = true := by
  intro a
  induction a with
  | nil => intro b; left; rfl
  | cons x xs ih =>
    intro b
    cases b with
    | nil => right; rfl
    | cons y ys =>
      by_cases h1 : x.toNat < y.toNat
      · left; simp [strLeChars, h1]
      · by_cases h2 : y.toNat < x.toNat
        · right; simp [strLeChars, h2]
        · rcases ih ys with h | h
          · left; simp [strLeChars, h1, h2, h]
          · right; simp [strLeChars, h1, h2, h]

theorem strLeChars_trans :
    ∀ a b c : List Char, strLeChars a b = true → strLeChars b c = true →
      strLeChars a c = true := by
  intro a
  induction a with
  | nil => intro b c h1 h2; rfl
  | cons x xs ih =>
    intro b c h1 h2
    cases b with
    | nil => simp [strLeChars] at h1
    | cons y ys =>
      cases c with
      | nil => simp [strLeChars] at h2
      | cons z zs =>
        simp only [strLeChars] at h1 h2 ⊢
        by_cases hxy : x.toNat < y.toNat
        · by_cases hyz : y.toNat < z.toNat
          · simp [show x.toNat < z.toNat by omega]
          · by_cases hzy : z.toNat < y.toNat
            · simp [hyz, hzy] at h2
            · simp [show x.toNat < z.toNat by omega]
        · by_cases hyx : y.toNat < x.toNat
          · simp [hxy, hyx] at h1
          · by_cases hyz : y.toNat < z.toNat
            · simp [show x.toNat < z.toNat by omega]
            · by_cases hzy : z.toNat < y.toNat
              · simp [hyz, hzy] at h2
              · have hxz : ¬x.toNat < z.toNat := by omega
                have hzx : ¬z.toNat < x.toNat := by omega
                simp only [hxy, hyx, if_false, ite_false] at h1
                simp only [hyz, hzy, if_false, ite_false] at h2
                simp [hxz, hzx, ih ys zs h1 h2]

theorem strLe_total (a b : String) : strLe a b = true ∨ strLe b a = true :=
  strLeChars_total a.data b.data

theorem strLe_trans (a b c : String) (h1 : strLe a b = true)
    (h2 : strLe b c = true) : strLe a c = true :=
  strLeChars_trans a.data b.data c.data h1 h2

theorem mem_insSorted (x : String) (l : List String) (y : String) :
    y ∈ insSorted x l ↔ y = x ∨ y ∈ l := by
  induction l with
  | nil => simp [insSorted]
  | cons z zs ih =>
    by_cases h : strLe x z = true
    · simp [insSorted, h]
    · have h2 : strLe x z = false := by simpa using h
      simp [insSorted, h2, ih]
      tauto

theorem sorted_insSorted (x : String) (l : List String)
    (h : l.Sorted (fun a b => strLe a b = true)) :
    (insSorted x l).Sorted (fun a b => strLe a b = true) := by
  induction l with
  | nil => simp [insSorted]
  | cons y ys ih =>
    rw [List.sorted_cons] at h
    obtain ⟨hy, hys⟩ := h
    by_cases hxy : strLe x y = true
    · simp only [insSorted, hxy, if_true, ite_true]
      rw [List.sorted_cons]
      refine ⟨?_, ?_⟩
      · intro b hb
        rcases List.mem_cons.1 hb with hb | hb
        · subst hb; exact hxy
        · exact strLe_trans x y b hxy (hy b hb)
      · rw [List.sorted_cons]
        exact ⟨hy, hys⟩
    · have hxy2 : strLe x y = false := by simpa using hxy
      simp only [insSorted, hxy2, Bool.false_eq_true, if_false, ite_false]
      rw [List.sorted_cons]
      refine ⟨?_, ih hys⟩
      intro b hb
      rcases (mem_insSorted x ys b).1 hb with hb | hb
      · rw [hb]
        rcases strLe_total x y with h | h
        · rw [h] at hxy2
          exact absurd hxy2 (by simp)
        · exact h
      · exact hy b hb

theorem sorted_jsSortStrings (l : List String) :
    (jsSortStrings l).Sorted (fun a b => strLe a b = true) := by
  induction l with
  | nil => simp [jsSortStrings]
  | cons x xs ih =>
    have h1 : jsSortStrings (x :: xs) = insSorted x (jsSortStrings xs) := rfl
    rw [h1]
    exact sorted_insSorted x _ ih

theorem mem_of_mem_jsSortStrings (l : List String) (y : String)
    (h : y ∈ jsSortStrings l) : y ∈ l := by
  induction l with
  | nil => simp [jsSortStrings] at h
  | cons x xs ih =>
    have h1 : jsSortStrings (x :: xs) = insSorted x (jsSortStrings xs) := rfl
    rw [h1] at h
    rcases (mem_insSorted _ _ _).1 h with h | h
    · simp [h]
    · exact List.mem_cons_of_mem _ (ih h)

/-- Counterexample to C5 as stated: a prerequisite code occurring twice
in the text contributes twice to the output, not once. -/
theorem claim_C5_counterexample :
    normalizePrereq (some "CS101 or CS101") = "CS101|CS101" ∧
    normalizePrereq (some "CS101 or CS101") ≠ "CS101" := by
  constructor
  · decide
  · decide

/-- C5 amended: normalizePrereq uppercases the text, extracts every
course-code match, replaces internal whitespace of each match with a
hyphen, sorts the resulting list of codes lexicographically with
duplicates retained, and joins them with a pipe separator; the result is
empty when the input is falsy or no codes are found, and its
pipe-separated components are always in ascending order. -/
theorem claim_C5_prereq_normalization :
    normalizePrereq none = "" ∧
    (∀ s : String, extractCodes (jsUpper (jsTrim s)) = [] →
      normalizePrereq (some s) = "") ∧
    normalizePrereq (some "mt100, cs 101") = "CS-101|MT100" ∧
    normalizePrereq (some "CS101 or CS101") = "CS101|CS101" ∧
    (∀ p : Option String,
      (pipeParts (normalizePrereq p)).Sorted
        (fun a b => strLe a b = true)) := by
  refine ⟨rfl, ?_, by decide, by decide, ?_⟩
  · intro s h
    by_cases hs : s = ""
    · subst hs; rfl
    · simp [normalizePrereq, jsTruthy, hs, h, jsSortStrings, joinPipe]
  · intro p
    have hemp : (pipeParts "").Sorted
        (fun a b : String => strLe a b = true) := by
      simp [pipeParts, pipeSplit]
    cases p with
    | none => exact hemp
    | some s =>
      by_cases hs : s = ""
      · subst hs; exact hemp
      · have hL : normalizePrereq (some s) =
            joinPipe (jsSortStrings ((extractCodes (jsUpper (jsTrim s))).map
              fun c => ⟨collapseWsWith '-' false c.data⟩)) := by
          simp [normalizePrereq, jsTruthy, hs]
        set L := jsSortStrings ((extractCodes (jsUpper (jsTrim s))).map
          fun c => ⟨collapseWsWith '-' false c.data⟩) with hLdef
        cases hcase : L with
        | nil => rw [hL, hcase]; exact hemp
        | cons x xs =>
          have hnopipe : ∀ z ∈ L, ∀ c ∈ z.data, c ≠ '|' := by
            intro z hz
            have hz2 := mem_of_mem_jsSortStrings _ _ hz
            rcases List.mem_map.1 hz2 with ⟨c0, hc0, he⟩
            subst he
            rcases List.mem_map.1 hc0 with ⟨m0, hm0, he2⟩
            subst he2
            exact collapseWs_no_pipe _ (scanCodes_no_pipe _ _ m0 hm0) false
          have hsplit := pipeSplit_joinPipe L (by rw [hcase]; simp) hnopipe
          have hparts : pipeParts (joinPipe L) = L := by
            simp only [pipeParts, hsplit]
            rw [List.map_map]
            have hid : ((fun l => (⟨l⟩ : String)) ∘ fun s => s.data) = id := by
              funext s; rfl
            rw [hid, List.map_id]
          rw [hL, hparts]
          exact sorted_jsSortStrings _

/-- Witness for the amended C5: a prerequisite text with no embedded
course codes normalizes to the empty string. -/
theorem claim_C5_prereq_normalization_witness :
    extractCodes (jsUpper (jsTrim "no prereq listed")) = [] ∧
    normalizePrereq (some "no prereq listed") = "" :=
  ⟨by decide,
    claim_C5_prereq_normalization.2.1 "no prereq listed" (by decide)⟩


/-! Order-preservation lemmas for the output-ordering claim: each output
block lists its entries in the order of the map it is drawn from. -/

theorem pairStep_valid (aware : Bool) (mC eC : Course) (d : Diff)
    (h : pairStep aware mC eC = some d) : pairedValid d = some mC := by
  unfold pairStep at h
  split_ifs at h
  · injection h with h1
    subst h1; rfl
  · injection h with h1
    subst h1; rfl

theorem findPair_valid (aware : Bool) (mC : Course)
    (es : List ((String × Nat × Course) × Bool)) (j : Nat) (d : Diff)
    (h : findPair aware mC es = some (j, d)) : pairedValid d = some mC := by
  induction es generalizing j with
  | nil => simp [findPair] at h
  | cons eb rest ih =>
    obtain ⟨e, used⟩ := eb
    by_cases hu : used = true
    · simp only [findPair, hu, if_true, ite_true] at h
      rcases Option.map_eq_some'.1 h with ⟨⟨j0, d0⟩, hp, he⟩
      injection he with he1 he2
      subst he2
      exact ih j0 hp
    · have hu2 : used = false := by simpa using hu
      simp only [findPair, hu2, Bool.false_eq_true, if_false, ite_false] at h
      cases hs : pairStep aware mC e.2.2 with
      | none =>
        rw [hs] at h
        rcases Option.map_eq_some'.1 h with ⟨⟨j0, d0⟩, hp, he⟩
        injection he with he1 he2
        subst he2
        exact ih j0 hp
      | some d0 =>
        rw [hs] at h
        injection h with h1
        injection h1 with h2 h3
        subst h3
        exact pairStep_valid aware mC e.2.2 d0 hs

/-- The paired diffs carry, in order, exactly the samples of the paired
missing candidates, in missing-list (reference-map) order: pairing order
is the outer-loop order over the reference map. -/
theorem pairLoop_valid (aware : Bool) :
    ∀ (ms : List (String × Nat × Course))
      (es : List ((String × Nat × Course) × Bool)),
      (pairLoop aware ms es).1.filterMap pairedValid =
        (ms.zip (pairLoop aware ms es).2.1).filterMap
          (fun me => if me.2 then some me.1.2.2 else none) := by
  intro ms
  induction ms with
  | nil => intro es; simp [pairLoop]
  | cons m mt ih =>
    intro es
    simp only [pairLoop]
    cases hf : findPair aware m.2.2 es with
    | none =>
      simp only [List.zip_cons_cons, List.filterMap_cons, if_false,
        ite_false]
      exact ih es
    | some p =>
      obtain ⟨j, d⟩ := p
      have hv := findPair_valid aware m.2.2 es j d hf
      simp only [List.zip_cons_cons, List.filterMap_cons, hv, if_true,
        ite_true]
      rw [ih (markUsed es j)]

theorem markUsed_fst :
    ∀ (es : List ((String × Nat × Course) × Bool)) (j : Nat),
      (markUsed es j).map (fun p => p.1) = es.map (fun p => p.1) := by
  intro es
  induction es with
  | nil => intro j; rfl
  | cons eb rest ih =>
    intro j
    obtain ⟨e, used⟩ := eb
    cases j with
    | zero => simp [markUsed]
    | succ j0 => simp [markUsed, ih j0]

/-- The pairing loop only flips used flags: the extra candidates, with
their counts and samples, come out in the order they went in. -/
theorem pairLoop_extras_fst (aware : Bool) :
    ∀ (ms : List (String × Nat × Course))
      (es : List ((String × Nat × Course) × Bool)),
      (pairLoop aware ms es).2.2.map (fun p => p.1) =
        es.map (fun p => p.1) := by
  intro ms
  induction ms with
  | nil => intro es; simp [pairLoop]
  | cons m mt ih =>
    intro es
    simp only [pairLoop]
    cases hf : findPair aware m.2.2 es with
    | none => exact ih es
    | some p =>
      obtain ⟨j, d⟩ := p
      simp only
      rw [ih (markUsed es j), markUsed_fst]

theorem zip_flagged_sublist {α β : Type} (g : α → β) :
    ∀ (l : List α) (bs : List Bool),
      (((l.zip bs).filterMap fun p =>
        if p.2 then some (g p.1) else none)).Sublist (l.map g) := by
  intro l
  induction l with
  | nil => intro bs; simp
  | cons a as ih =>
    intro bs
    cases bs with
    | nil => simp
    | cons b bt =>
      cases b with
      | false =>
        have hh : (fun p : α × Bool => if p.2 then some (g p.1) else none)
            (a, false) = none := rfl
        rw [List.zip_cons_cons]
        simp only [List.filterMap_cons, hh, List.map_cons]
        exact (ih bt).cons _
      | true =>
        have hh : (fun p : α × Bool => if p.2 then some (g p.1) else none)
            (a, true) = some (g a) := rfl
        rw [List.zip_cons_cons]
        simp only [List.filterMap_cons, hh, List.map_cons]
        exact (ih bt).cons₂ _

theorem zip_unflagged_sublist {α β : Type} (g : α → β) :
    ∀ (l : List α) (bs : List Bool),
      (((l.zip bs).filterMap fun p =>
        if p.2 then none else some (g p.1))).Sublist (l.map g) := by
  intro l
  induction l with
  | nil => intro bs; simp
  | cons a as ih =>
    intro bs
    cases bs with
    | nil => simp
    | cons b bt =>
      cases b with
      | false =>
        have hh : (fun p : α × Bool => if p.2 then none else some (g p.1))
            (a, false) = some (g a) := rfl
        rw [List.zip_cons_cons]
        simp only [List.filterMap_cons, hh, List.map_cons]
        exact (ih bt).cons₂ _
      | true =>
        have hh : (fun p : α × Bool => if p.2 then none else some (g p.1))
            (a, true) = none := rfl
        rw [List.zip_cons_cons]
        simp only [List.filterMap_cons, hh, List.map_cons]
        exact (ih bt).cons _

theorem pairs_unflagged_sublist {α β : Type} (g : α → β) :
    ∀ l : List (α × Bool),
      ((l.filterMap fun p => if p.2 then none else some (g p.1))).Sublist
        (l.map fun p => g p.1) := by
  intro l
  induction l with
  | nil => simp
  | cons ab rest ih =>
    obtain ⟨a, b⟩ := ab
    cases b with
    | false =>
      have hh : (fun p : α × Bool => if p.2 then none else some (g p.1))
          (a, false) = some (g a) := rfl
      simp only [List.filterMap_cons, hh, List.map_cons]
      exact ih.cons₂ _
    | true =>
      have hh : (fun p : α × Bool => if p.2 then none else some (g p.1))
          (a, true) = none := rfl
      simp only [List.filterMap_cons, hh, List.map_cons]
      exact ih.cons _

/-- The missing candidates are a subsequence of the reference map. -/
theorem collectMissing_sublist (fMap : CMap) :
    ∀ vMap : CMap, (collectMissing fMap vMap).Sublist vMap := by
  intro vMap
  induction vMap with
  | nil => simp [collectMissing]
  | cons e rest ih =>
    obtain ⟨k, n, c⟩ := e
    cases he : lookupC fMap k with
    | none =>
      simp only [collectMissing, he]
      exact ih.cons₂ _
    | some p =>
      simp only [collectMissing, he]
      exact ih.cons _

/-- The extra candidates are a subsequence of the live map. -/
theorem collectExtra_sublist (vMap : CMap) :
    ∀ fMap : CMap, (collectExtra vMap fMap).Sublist fMap := by
  intro fMap
  induction fMap with
  | nil => simp [collectExtra]
  | cons e rest ih =>
    obtain ⟨k, n, c⟩ := e
    by_cases he : (lookupC vMap k).isNone = true
    · simp only [collectExtra, he, if_true, ite_true]
      exact ih.cons₂ _
    · have he2 : (lookupC vMap k).isNone = false := by
        cases h2 : (lookupC vMap k).isNone
        · rfl
        · exact absurd h2 he
      simp only [collectExtra, he2, Bool.false_eq_true, if_false, ite_false]
      exact ih.cons _

/-- The count-mismatch samples are a subsequence of the reference map's
samples. -/
theorem collectCountMis_map_sublist (fMap : CMap) :
    ∀ vMap : CMap,
      ((collectCountMis fMap vMap).map (fun x => x.1)).Sublist
        (vMap.map (fun e => e.2.2)) := by
  intro vMap
  induction vMap with
  | nil => simp [collectCountMis]
  | cons e rest ih =>
    obtain ⟨k, n, c⟩ := e
    cases he : lookupC fMap k with
    | none =>
      simp only [collectCountMis, he, List.map_cons]
      exact ih.cons _
    | some p =>
      obtain ⟨fn, fc⟩ := p
      by_cases hne : fn ≠ n
      · simp only [collectCountMis, he, if_pos hne, List.map_cons]
        exact ih.cons₂ _
      · simp only [collectCountMis, he, if_neg hne, List.map_cons]
        exact ih.cons _

theorem filterMap_some_eq_map {α β : Type} (f : α → β) :
    ∀ l : List α, (l.filterMap fun a => some (f a)) = l.map f := by
  intro l
  induction l with
  | nil => rfl
  | cons a as ih => simp only [List.filterMap_cons, List.map_cons, ih]

/-- Strengthened decomposition of the engine output: the four category
blocks in emission order, and, inside each block, the entries in the
order of the map they are drawn from — the paired diffs' reference-side
courses and the missing and count-mismatch samples traverse the
reference map in its order, the extra samples traverse the live map in
its order. -/
theorem compareSemestersCore_decomp_strong (aware : Bool) (f v : Semester) :
    ∃ p ms ex cm,
      compareSemestersCore aware f v = p ++ ms ++ ex ++ cm ∧
      (∀ d ∈ p, d.rank = 0) ∧ (∀ d ∈ ms, d.rank = 1) ∧
      (∀ d ∈ ex, d.rank = 2) ∧ (∀ d ∈ cm, d.rank = 3) ∧
      (p.filterMap pairedValid).Sublist
        ((makeCountMap (fingerprintOf aware) v.courses).map
          (fun e => e.2.2)) ∧
      (ms.filterMap diffCourse).Sublist
        ((makeCountMap (fingerprintOf aware) v.courses).map
          (fun e => e.2.2)) ∧
      (ex.filterMap diffCourse).Sublist
        ((makeCountMap (fingerprintOf aware) f.courses).map
          (fun e => e.2.2)) ∧
      (cm.filterMap diffCourse).Sublist
        ((makeCountMap (fingerprintOf aware) v.courses).map
          (fun e => e.2.2)) := by
  refine ⟨_, _, _, _, rfl, ?_, ?_, ?_, ?_, ?_, ?_, ?_, ?_⟩
  · intro d hd
    exact pairLoop_rank aware _ _ d hd
  · intro d hd
    rcases List.mem_filterMap.1 hd with ⟨a, ha, hfa⟩
    split_ifs at hfa
    injection hfa with h1
    subst h1; rfl
  · intro d hd
    rcases List.mem_filterMap.1 hd with ⟨a, ha, hfa⟩
    split_ifs at hfa
    injection hfa with h1
    subst h1; rfl
  · intro d hd
    rcases List.mem_map.1 hd with ⟨a, ha, hfa⟩
    subst hfa; rfl
  · rw [pairLoop_valid]
    exact (zip_flagged_sublist
        (fun en : String × Nat × Course => en.2.2) _ _).trans
      ((collectMissing_sublist _ _).map
        (fun en : String × Nat × Course => en.2.2))
  · rw [List.filterMap_filterMap]
    have hfun : (fun me : (String × Nat × Course) × Bool =>
        (if me.2 then none
          else some (Diff.missingInFetched me.1.2.1 me.1.2.2)).bind
          diffCourse) =
        fun me => if me.2 then none else some me.1.2.2 := by
      funext me
      cases hme : me.2 <;> simp [hme, diffCourse]
    rw [hfun]
    exact (zip_unflagged_sublist
        (fun en : String × Nat × Course => en.2.2) _ _).trans
      ((collectMissing_sublist _ _).map
        (fun en : String × Nat × Course => en.2.2))
  · rw [List.filterMap_filterMap]
    have hfun : (fun eb : (String × Nat × Course) × Bool =>
        (if eb.2 then none
          else some (Diff.extraInFetched eb.1.2.1 eb.1.2.2)).bind
          diffCourse) =
        fun eb => if eb.2 then none else some eb.1.2.2 := by
      funext eb
      cases heb : eb.2 <;> simp [heb, diffCourse]
    rw [hfun]
    refine (pairs_unflagged_sublist
      (fun en : String × Nat × Course => en.2.2) _).trans ?_
    have h3 := pairLoop_extras_fst aware
      (collectMissing (makeCountMap (fingerprintOf aware) f.courses)
        (makeCountMap (fingerprintOf aware) v.courses))
      ((collectExtra (makeCountMap (fingerprintOf aware) v.courses)
        (makeCountMap (fingerprintOf aware) f.courses)).map
        (fun e => (e, false)))
    have h2 : (pairLoop aware
        (collectMissing (makeCountMap (fingerprintOf aware) f.courses)
          (makeCountMap (fingerprintOf aware) v.courses))
        ((collectExtra (makeCountMap (fingerprintOf aware) v.courses)
          (makeCountMap (fingerprintOf aware) f.courses)).map
          (fun e => (e, false)))).2.2.map (fun p => p.1.2.2) =
        (collectExtra (makeCountMap (fingerprintOf aware) v.courses)
          (makeCountMap (fingerprintOf aware) f.courses)).map
          (fun en => en.2.2) := by
      have h4 := congrArg (List.map (fun en : String × Nat × Course =>
        en.2.2)) h3
      simpa [List.map_map, Function.comp] using h4
    rw [h2]
    exact (collectExtra_sublist _ _).map
      (fun en : String × Nat × Course => en.2.2)
  · rw [List.filterMap_map]
    have hfun : (diffCourse ∘ fun cmE : Course × Nat × Nat =>
        Diff.countMismatch cmE.1 cmE.2.1 cmE.2.2) =
        fun cmE => some cmE.1 := by
      funext cmE
      simp [Function.comp, diffCourse]
    rw [hfun,
      filterMap_some_eq_map (fun cmE : Course × Nat × Nat => cmE.1)]
    exact collectCountMis_map_sublist _ _

/-- C2: both reconciliation functions emit the paired code-mismatch and
prerequisite-mismatch diffs first, then the unpaired missing entries,
then the unpaired extra entries, and all count-mismatch entries last;
category rank is monotone along the whole output, and within the blocks
the paired diffs come in pairing order (their reference-side courses
traverse the reference map in its order, as the greedy outer loop does),
the missing and count-mismatch entries in reference-map order, and the
extra entries in live-map order, stated as subsequence relations against
the respective fingerprint maps. -/
theorem claim_C2_output_ordering (f v : Semester) :
    ((compareSemesters f v).Pairwise (fun a b => a.rank ≤ b.rank) ∧
      ∃ p ms ex cm, compareSemesters f v = p ++ ms ++ ex ++ cm ∧
        (∀ d ∈ p, d.rank = 0) ∧ (∀ d ∈ ms, d.rank = 1) ∧
        (∀ d ∈ ex, d.rank = 2) ∧ (∀ d ∈ cm, d.rank = 3) ∧
        (p.filterMap pairedValid).Sublist
          ((makeCountMap fingerprintP v.courses).map (fun e => e.2.2)) ∧
        (ms.filterMap diffCourse).Sublist
          ((makeCountMap fingerprintP v.courses).map (fun e => e.2.2)) ∧
        (ex.filterMap diffCourse).Sublist
          ((makeCountMap fingerprintP f.courses).map (fun e => e.2.2)) ∧
        (cm.filterMap diffCourse).Sublist
          ((makeCountMap fingerprintP v.courses).map (fun e => e.2.2))) ∧
    ((compareSemestersAI f v).Pairwise (fun a b => a.rank ≤ b.rank) ∧
      ∃ p ms ex cm, compareSemestersAI f v = p ++ ms ++ ex ++ cm ∧
        (∀ d ∈ p, d.rank = 0) ∧ (∀ d ∈ ms, d.rank = 1) ∧
        (∀ d ∈ ex, d.rank = 2) ∧ (∀ d ∈ cm, d.rank = 3) ∧
        (p.filterMap pairedValid).Sublist
          ((makeCountMap fingerprintAI v.courses).map (fun e => e.2.2)) ∧
        (ms.filterMap diffCourse).Sublist
          ((makeCountMap fingerprintAI v.courses).map (fun e => e.2.2)) ∧
        (ex.filterMap diffCourse).Sublist
          ((makeCountMap fingerprintAI f.courses).map (fun e => e.2.2)) ∧
        (cm.filterMap diffCourse).Sublist
          ((makeCountMap fingerprintAI v.courses).map (fun e => e.2.2))) :=
  ⟨⟨compareSemestersCore_rank_sorted true f v,
      compareSemestersCore_decomp_strong true f v⟩,
    ⟨compareSemestersCore_rank_sorted false f v,
      compareSemestersCore_decomp_strong false f v⟩⟩

end SubUpd
